import Mathlib

/-!
Verification development for the write-command core of a BSON document-database
client driver (file src/mongoc/mongoc-write-command.c).

The embedding models BSON documents as ordered association lists of fields,
machine integers as Nat/Int with explicit wrapping at 2^32 where the C code
performs implicit conversions between `uint32_t` and `int32_t`, and the
transport (send / receive-getLastError / simple-command) as oracles passed to
the executor functions.  The functions below are direct translations of the
corresponding C functions and keep their names (without the leading
underscore, which Lean reserves for holes).
-/

/-- Wrap an unbounded integer to the value an `int32_t` holds after a C
narrowing conversion (two's complement). -/
def int32Wrap (x : Int) : Int := (x + 2147483648) % 4294967296 - 2147483648

/-- Value of an `int32_t` (or any integer) after conversion to `uint32_t`,
as a natural number. -/
def uint32OfInt (x : Int) : Nat := (x % 4294967296).toNat

/-- Wrap a natural number to `uint32_t` range (uint32 arithmetic is mod 2^32). -/
def uint32Wrap (n : Nat) : Nat := n % 4294967296

/-- BSON values as far as the write-command core inspects them.  Documents
and arrays carry their elements; other element types that the core never
looks into are represented by their payloads. -/
inductive BVal where
  | int32 (i : Int)
  | int64 (i : Int)
  | utf8 (s : String)
  | boolean (b : Bool)
  | doc (fields : List (String × BVal))
  | array (elems : List BVal)
  | oid (n : Nat)
  | null

/-- A BSON document: an ordered list of key/value fields. -/
abbrev BDoc := List (String × BVal)

/-- Semantics of `bson_iter_init_find`: the value of the first field with the
given key, if any. -/
def bsonFind (fields : BDoc) (key : String) : Option BVal :=
  match fields.find? (fun kv => kv.1 = key) with
  | some kv => some kv.2
  | none => none

/-- Semantics of libbson `bson_iter_int32`: the value when the element holds
an int32, otherwise 0. -/
def bsonIterInt32 : BVal → Int
  | .int32 i => i
  | _ => 0

/-- Semantics of libbson `bson_iter_bool`: the value when the element holds a
boolean, otherwise false. -/
def bsonIterBool : BVal → Bool
  | .boolean b => b
  | _ => false

/-- Semantics of libbson `bson_iter_as_bool`: booleans and integers by their
value, null is false, every other element type is truthy. -/
def bsonIterAsBool : BVal → Bool
  | .boolean b => b
  | .int32 i => decide (i ≠ 0)
  | .int64 i => decide (i ≠ 0)
  | .null => false
  | _ => true

/-- Semantics of libbson `bson_iter_utf8`: the string when the element holds
UTF-8 text, otherwise NULL (`none`). -/
def bsonIterUtf8 : BVal → Option String
  | .utf8 s => some s
  | _ => none

/-- The write-command kinds, in the C enum order used to index
`gCommandNames` / `gCommandFields` / the `_empty_error` code table:
delete, insert, update. -/
inductive WKind where
  | delete
  | insert
  | update
deriving DecidableEq

/-- `gCommandNames`, indexed by `WKind`. -/
def gCommandNames : WKind → String
  | .delete => "delete"
  | .insert => "insert"
  | .update => "update"

/-- Error domains of `bson_error_t.domain` used by this file.  The numeric
values live in mongoc-error.h, which is not part of the repository sources;
only their identity matters to the claims. -/
inductive ErrDomain where
  | noDomain
  | errBson
  | errCollection
  | errCommand
deriving DecidableEq

/-- A `bson_error_t`: domain, code, message.  Zero-initialized means
`noDomain`, code 0, empty message. -/
structure BsonError where
  domain : ErrDomain := .noDomain
  code : Int := 0
  message : String := ""
deriving DecidableEq

/-- Modelled from the spec: the per-kind error codes
MONGOC_ERROR_COLLECTION_DELETE_FAILED / INSERT_FAILED / UPDATE_FAILED are
declared in mongoc-error.h, which is absent from the sources; distinct
placeholder values are used, the claims depend only on which code is set. -/
def emptyErrorCode : WKind → Int
  | .delete => 101
  | .insert => 102
  | .update => 103

/-- Modelled from the spec: MONGOC_ERROR_COMMAND_INVALID_ARG, numeric value
absent from the sources. -/
def MONGOC_ERROR_COMMAND_INVALID_ARG : Int := 104

/-- Modelled from the spec: MONGOC_ERROR_BSON_INVALID, numeric value absent
from the sources. -/
def MONGOC_ERROR_BSON_INVALID : Int := 105

/-- The accumulator `mongoc_write_result_t`.  The `upserted` and
`writeErrors` arrays are bson arrays whose keys are the dense stringified
integers, modelled as lists of their element documents; `writeConcernError`
is a single bson document modelled by its field list (the C code grows it
with `bson_concat`).  `error` is the embedded `bson_error_t`. -/
structure WriteResult where
  omit_nModified : Bool := false
  nInserted : Int := 0
  nMatched : Int := 0
  nModified : Int := 0
  nRemoved : Int := 0
  nUpserted : Int := 0
  upsert_append_count : Nat := 0
  writeErrors : List BDoc := []
  upserted : List BDoc := []
  writeConcernError : BDoc := []
  failed : Bool := false
  error : BsonError := {}

/-- `_mongoc_write_result_init`: zero-initialize and init the three bson
containers. -/
def mongoc_write_result_init : WriteResult := {}

/-- `bson_set_error`: fill a `bson_error_t`. -/
def bson_set_error (domain : ErrDomain) (code : Int) (message : String) : BsonError :=
  { domain := domain, code := code, message := message }

/-- `_mongoc_write_command_will_overflow` (mongoc-write-command.c:583-606),
with C arithmetic made explicit: `len_so_far`, `document_len` and
`n_documents_written` are `uint32_t`; `max_bson_size` and
`max_write_batch_size` are `int32_t`.  `max_cmd_size = max_bson_size + 16382`
is computed in int32; the comparison `len_so_far + document_len >
max_cmd_size` converts `max_cmd_size` to uint32 and adds in uint32, and
`n_documents_written >= max_write_batch_size` likewise compares in uint32,
while the guard `max_write_batch_size > 0` is a signed comparison. -/
def mongoc_write_command_will_overflow (len_so_far document_len n_documents_written : Nat)
    (max_bson_size max_write_batch_size : Int) : Bool :=
  let max_cmd_size : Int := int32Wrap (max_bson_size + 16382)
  if uint32Wrap (len_so_far + document_len) > uint32OfInt max_cmd_size then
    true
  else if max_write_batch_size > 0 ∧
      uint32Wrap n_documents_written ≥ uint32OfInt max_write_batch_size then
    true
  else
    false

/-- Per-document step of `_mongoc_write_command_insert_append`
(mongoc-write-command.c:80-102): if the document has no "_id" field, a new
document is built whose first field is a freshly generated ObjectId "_id"
(the generated oid is a parameter here) and the original fields are
concatenated after it; otherwise the document is appended unchanged. -/
def insertAppendOne (freshOid : Nat) (document : BDoc) : BDoc :=
  match bsonFind document "_id" with
  | none => ("_id", BVal.oid freshOid) :: document
  | some _ => document

/-- All entries `_mongoc_write_command_insert_append` appends for a list of
incoming documents; `oidGen i` is the oid freshly generated for the i-th
document of the call (only consulted when that document lacks "_id"). -/
def insertAppendEntries (oidGen : Nat → Nat) : Nat → List BDoc → List BDoc
  | _, [] => []
  | i, d :: ds => insertAppendOne (oidGen i) d :: insertAppendEntries oidGen (i + 1) ds

/-- Number of "_id" fields of a document. -/
def idCount (document : BDoc) : Nat :=
  (document.filter (fun kv => kv.1 = "_id")).length

/-- The "n" field of a reply as both merge routines read it
(`bson_iter_init_find` plus an int32 type check, default 0). -/
def replyN (reply : BDoc) : Int :=
  match bsonFind reply "n" with
  | some (.int32 i) => i
  | _ => 0

/-- One field copied by the inner loop of `_mongoc_write_result_merge_arrays`
(mongoc-write-command.c:1198-1206): a field keyed "index" is replaced by
`bson_iter_int32` of its value plus the uint32 `offset`, stored through an
`int32_t`; every other field is copied verbatim. -/
def rewriteErrorField (offset : Nat) (kv : String × BVal) : String × BVal :=
  if kv.1 = "index" then
    ("index", BVal.int32 (int32Wrap (bsonIterInt32 kv.2 + offset)))
  else
    kv

/-- The entries `_mongoc_write_result_merge_arrays`
(mongoc-write-command.c:1165-1214) appends to its destination array for a
source array: each element that holds a document contributes that document
with its "index" fields rewritten; other elements are skipped. -/
def mongoc_write_result_merge_arrays (offset : Nat) : List BVal → List BDoc
  | [] => []
  | .doc f :: rest =>
      f.map (rewriteErrorField offset) :: mongoc_write_result_merge_arrays offset rest
  | _ :: rest => mongoc_write_result_merge_arrays offset rest

/-- The `{index, _id}` record `_mongoc_write_result_append_upsert` writes. -/
def upsertEntryDoc (idx : Int) (value : BVal) : BDoc :=
  [("index", BVal.int32 idx), ("_id", value)]

/-- `_mongoc_write_result_append_upsert` (mongoc-write-command.c:1030-1052):
append an `{index, _id}` document keyed by `upsert_append_count` (keys are
implicit list positions here) and bump the count.  `idx` is the `int32_t`
parameter value. -/
def mongoc_write_result_append_upsert (r : WriteResult) (idx : Int) (value : BVal) :
    WriteResult :=
  { r with upserted := r.upserted ++ [upsertEntryDoc idx value],
           upsert_append_count := r.upsert_append_count + 1 }

/-- The err/code pair of a legacy getLastError reply when
`_mongoc_write_result_merge_legacy` treats it as an error: "err" present as
UTF-8 and "code" present as a nonzero int32 (mongoc-write-command.c:1081-1091,
guard `code && err` at line 1091). -/
def legacyGleError (reply : BDoc) : Option (Int × String) :=
  let err : Option String :=
    match bsonFind reply "err" with
    | some (.utf8 s) => some s
    | _ => none
  let code : Int :=
    match bsonFind reply "code" with
    | some (.int32 c) => c
    | _ => 0
  match err with
  | some e => if code ≠ 0 then some (code, e) else none
  | none => none

/-- Error-synthesis step of `_mongoc_write_result_merge_legacy`
(mongoc-write-command.c:1091-1113): on an err/code reply set the result
error, mark failed, and merge the single synthesized write error
`{index: 0, code, errmsg}` through the array-merge routine at `offset`. -/
def mergeLegacyErrStep (reply : BDoc) (offset : Nat) (r : WriteResult) : WriteResult :=
  match legacyGleError reply with
  | some ce =>
      { r with error := bson_set_error .errCollection ce.1 ce.2,
               failed := true,
               writeErrors := r.writeErrors ++
                 mongoc_write_result_merge_arrays offset
                   [BVal.doc [("index", BVal.int32 0), ("code", BVal.int32 ce.1),
                              ("errmsg", BVal.utf8 ce.2)]] }
  | none => r

/-- Whether a legacy update reply carries `updatedExisting` as boolean false
(mongoc-write-command.c:1147-1149). -/
def updatedExistingFalse (reply : BDoc) : Bool :=
  match bsonFind reply "updatedExisting" with
  | some (.boolean b) => !b
  | _ => false

/-- Walk of the legacy `upserted` array (mongoc-write-command.c:1133-1145):
each element that holds a document with an "_id" field contributes one
upsert record at `offset + upsert_idx` (a uint32 sum passed through the
`int32_t` parameter of the append routine), where `upsert_idx` counts
the contributing elements. -/
def appendLegacyUpserts (offset : Nat) (upsertIdx : Nat) (elems : List BVal)
    (r : WriteResult) : WriteResult :=
  match elems with
  | [] => r
  | .doc f :: rest =>
      match bsonFind f "_id" with
      | some v =>
          appendLegacyUpserts offset (upsertIdx + 1) rest
            (mongoc_write_result_append_upsert r (int32Wrap (offset + upsertIdx)) v)
      | none => appendLegacyUpserts offset upsertIdx rest r
  | _ :: rest => appendLegacyUpserts offset upsertIdx rest r

/-- Update case of `_mongoc_write_result_merge_legacy`
(mongoc-write-command.c:1124-1153): `upserted` present as a non-array scalar
contributes one upsert record at `offset`; present as an array, its documents
with "_id" each contribute one record; with no `upserted`, `n == 1` together
with `updatedExisting == false` counts as an upsert, otherwise as matched. -/
def mergeLegacyUpdate (reply : BDoc) (offset : Nat) (n : Int) (r : WriteResult) :
    WriteResult :=
  match bsonFind reply "upserted" with
  | some (.array l) =>
      appendLegacyUpserts offset 0 l { r with nUpserted := r.nUpserted + n }
  | some v =>
      mongoc_write_result_append_upsert { r with nUpserted := r.nUpserted + n }
        (int32Wrap offset) v
  | none =>
      if n = 1 ∧ updatedExistingFalse reply then
        { r with nUpserted := r.nUpserted + n }
      else
        { r with nMatched := r.nMatched + n }

/-- Per-kind counter step of `_mongoc_write_result_merge_legacy`
(mongoc-write-command.c:1115-1157). -/
def mergeLegacyKindStep (k : WKind) (reply : BDoc) (offset : Nat) (r : WriteResult) :
    WriteResult :=
  let n := replyN reply
  match k with
  | .insert => if n ≠ 0 then { r with nInserted := r.nInserted + n } else r
  | .delete => { r with nRemoved := r.nRemoved + n }
  | .update => mergeLegacyUpdate reply offset n r

/-- `_mongoc_write_result_merge_legacy` (mongoc-write-command.c:1055-1162):
error synthesis, per-kind counters, and `omit_nModified` set unconditionally
at the end (legacy replies never carry nModified). -/
def mongoc_write_result_merge_legacy (k : WKind) (reply : BDoc) (offset : Nat)
    (r : WriteResult) : WriteResult :=
  { mergeLegacyKindStep k reply offset (mergeLegacyErrStep reply offset r) with
    omit_nModified := true }

/-- Whether a command reply carries a non-empty `writeErrors` array
(mongoc-write-command.c:1241-1246). -/
def cmdReplyHasWriteErrors (reply : BDoc) : Bool :=
  match bsonFind reply "writeErrors" with
  | some (.array (_ :: _)) => true
  | _ => false

/-- The `(index, _id)` pairs the command-path upsert walk extracts
(mongoc-write-command.c:1263-1279): document elements whose "index" is an
int32 and which have an "_id" field. -/
def cmdUpsertPairs : List BVal → List (Int × BVal)
  | [] => []
  | .doc f :: rest =>
      match bsonFind f "index" with
      | some (.int32 si) =>
          match bsonFind f "_id" with
          | some v => (si, v) :: cmdUpsertPairs rest
          | none => cmdUpsertPairs rest
      | _ => cmdUpsertPairs rest
  | _ :: rest => cmdUpsertPairs rest

/-- Append the command-path upsert records, each at `offset + server_index`
(uint32 sum through the `int32_t` append parameter). -/
def appendCmdUpserts (offset : Nat) (pairs : List (Int × BVal)) (r : WriteResult) :
    WriteResult :=
  match pairs with
  | [] => r
  | p :: rest =>
      appendCmdUpserts offset rest
        (mongoc_write_result_append_upsert r (int32Wrap (offset + p.1)) p.2)

/-- Update case of `_mongoc_write_result_merge`
(mongoc-write-command.c:1255-1304): with an `upserted` field, walk it (when
it is an array), add the upsert count, add `max 0 (n − upserts)` to matched;
without one add `n` to matched; then add `nModified` when present as int32,
else set `omit_nModified`. -/
def mergeCmdUpdate (reply : BDoc) (offset : Nat) (affected : Int) (r : WriteResult) :
    WriteResult :=
  let r :=
    match bsonFind reply "upserted" with
    | some v =>
        let pairs := match v with
          | .array l => cmdUpsertPairs l
          | _ => []
        let r := appendCmdUpserts offset pairs r
        { r with nUpserted := r.nUpserted + pairs.length,
                 nMatched := r.nMatched + max 0 (affected - pairs.length) }
    | none => { r with nMatched := r.nMatched + affected }
  match bsonFind reply "nModified" with
  | some (.int32 m) => { r with nModified := r.nModified + m }
  | _ => { r with omit_nModified := true }

/-- Per-kind counter step of `_mongoc_write_result_merge`
(mongoc-write-command.c:1248-1309). -/
def mergeCmdKindStep (k : WKind) (reply : BDoc) (offset : Nat) (affected : Int)
    (r : WriteResult) : WriteResult :=
  match k with
  | .insert => { r with nInserted := r.nInserted + affected }
  | .delete => { r with nRemoved := r.nRemoved + affected }
  | .update => mergeCmdUpdate reply offset affected r

/-- writeErrors merge step of `_mongoc_write_result_merge`
(mongoc-write-command.c:1311-1315). -/
def mergeCmdWriteErrorsStep (reply : BDoc) (offset : Nat) (r : WriteResult) :
    WriteResult :=
  match bsonFind reply "writeErrors" with
  | some (.array l) =>
      { r with writeErrors := r.writeErrors ++ mongoc_write_result_merge_arrays offset l }
  | _ => r

/-- writeConcernError step of `_mongoc_write_result_merge`
(mongoc-write-command.c:1317-1327): the reply's writeConcernError document is
concatenated onto the accumulator's (`bson_concat`). -/
def mergeCmdWceStep (reply : BDoc) (r : WriteResult) : WriteResult :=
  match bsonFind reply "writeConcernError" with
  | some (.doc f) => { r with writeConcernError := r.writeConcernError ++ f }
  | _ => r

/-- `_mongoc_write_result_merge` (mongoc-write-command.c:1217-1330). -/
def mongoc_write_result_merge (k : WKind) (reply : BDoc) (offset : Nat)
    (r : WriteResult) : WriteResult :=
  let affected := replyN reply
  let r := { r with failed := r.failed || cmdReplyHasWriteErrors reply }
  mergeCmdWceStep reply
    (mergeCmdWriteErrorsStep reply offset (mergeCmdKindStep k reply offset affected r))

/-- Scan of the first write-error document in
`_mongoc_write_result_complete` (mongoc-write-command.c:1380-1386): the last
"errmsg" field read with `bson_iter_utf8` (NULL when not UTF-8) and the last
"code" field read with `bson_iter_int32` (0 when not int32). -/
def scanFirstWriteError (fields : BDoc) : Option String × Int :=
  fields.foldl
    (fun acc kv =>
      if kv.1 = "errmsg" then (bsonIterUtf8 kv.2, acc.2)
      else if kv.1 = "code" then (acc.1, bsonIterInt32 kv.2)
      else acc)
    (none, 0)

/-- The caller-visible error record `_mongoc_write_result_complete` leaves:
the result's own error (memcpy at line 1371), overwritten by the first write
error's errmsg/code whenever `ret` is false, writeErrors is non-empty, and
that entry carries a UTF-8 errmsg and a nonzero code
(mongoc-write-command.c:1374-1390). -/
def completeErrOut (r : WriteResult) (ret : Bool) : BsonError :=
  match r.writeErrors with
  | [] => r.error
  | first :: _ =>
      if ret then r.error
      else
        let s := scanFirstWriteError first
        match s.1 with
        | some msg => if s.2 ≠ 0 then bson_set_error .errCommand s.2 msg else r.error
        | none => r.error

/-- The finalized result document of `_mongoc_write_result_complete`
(mongoc-write-command.c:1352-1368): counters as int32 fields, `nModified`
omitted under `omit_nModified`, `upserted` only when non-empty, `writeErrors`
always, `writeConcernError` only when non-empty. -/
def completeDoc (r : WriteResult) : BDoc :=
  [("nInserted", BVal.int32 r.nInserted), ("nMatched", BVal.int32 r.nMatched)] ++
  (if r.omit_nModified then [] else [("nModified", BVal.int32 r.nModified)]) ++
  [("nRemoved", BVal.int32 r.nRemoved), ("nUpserted", BVal.int32 r.nUpserted)] ++
  (if r.upserted.isEmpty then [] else
    [("upserted", BVal.array (r.upserted.map BVal.doc))]) ++
  [("writeErrors", BVal.array (r.writeErrors.map BVal.doc))] ++
  (if r.writeConcernError.isEmpty then [] else
    [("writeConcernError", BVal.doc r.writeConcernError)])

/-- `_mongoc_write_result_complete` (mongoc-write-command.c:1333-1393):
returns (terminal boolean, finalized document, caller error record).  The
boolean is true iff not failed and both writeConcernError and writeErrors
are empty. -/
def mongoc_write_result_complete (r : WriteResult) : Bool × BDoc × BsonError :=
  let ret := !r.failed && r.writeConcernError.isEmpty && r.writeErrors.isEmpty
  (ret, completeDoc r, completeErrOut r ret)

/-- One merge operation fed to a result accumulator: a command-path merge or
a legacy merge, with its write-command kind, the server reply, and the
caller-supplied uint32 offset. -/
inductive MergeOp where
  | cmd (k : WKind) (reply : BDoc) (offset : Nat)
  | legacy (k : WKind) (reply : BDoc) (offset : Nat)

/-- The caller-supplied offset of a merge operation. -/
def MergeOp.off : MergeOp → Nat
  | .cmd _ _ o => o
  | .legacy _ _ o => o

/-- Apply one merge operation to an accumulator. -/
def applyMergeOp (r : WriteResult) (op : MergeOp) : WriteResult :=
  match op with
  | .cmd k reply offset => mongoc_write_result_merge k reply offset r
  | .legacy k reply offset => mongoc_write_result_merge_legacy k reply offset r

/-- Apply a sequence of merge operations, oldest first. -/
def applyMergeTrace (ops : List MergeOp) (r : WriteResult) : WriteResult :=
  ops.foldl applyMergeOp r

/-- The document elements of a bson array (the elements both array walks
recurse into; non-document elements are skipped). -/
def docElems : List BVal → List BDoc
  | [] => []
  | .doc f :: rest => f :: docElems rest
  | _ :: rest => docElems rest

/-- The write-error documents a merge operation draws from its reply, before
index rewriting: the document elements of a command reply's `writeErrors`
array, or the single synthesized `{index: 0, code, errmsg}` document of an
err/code legacy reply. -/
def weSrcEntries : MergeOp → List BDoc
  | .cmd _ reply _ =>
      match bsonFind reply "writeErrors" with
      | some (.array l) => docElems l
      | _ => []
  | .legacy _ reply _ =>
      match legacyGleError reply with
      | some ce =>
          [[("index", BVal.int32 0), ("code", BVal.int32 ce.1),
            ("errmsg", BVal.utf8 ce.2)]]
      | none => []

/-- The write-error entries a merge operation appends to the accumulator. -/
def MergeOp.weContrib (op : MergeOp) : List BDoc :=
  (weSrcEntries op).map (fun f => f.map (rewriteErrorField op.off))

/-- Positions (server-side per-batch indices) and `_id` values of the
contributing elements of a legacy `upserted` array: document elements that
have an `_id` field, numbered by `upsert_idx`. -/
def legacyUpsertPairs (j : Nat) : List BVal → List (Int × BVal)
  | [] => []
  | .doc f :: rest =>
      match bsonFind f "_id" with
      | some v => ((j : Int), v) :: legacyUpsertPairs (j + 1) rest
      | none => legacyUpsertPairs j rest
  | _ :: rest => legacyUpsertPairs j rest

/-- The server-reported (per-batch index, `_id`) pairs a merge operation
turns into upsert records: on the command path the `{index, _id}` array
elements of an update reply; on the legacy path the whole scalar `upserted`
value at index 0, or the positions of the contributing array elements. -/
def upsSrcPairs : MergeOp → List (Int × BVal)
  | .cmd k reply _ =>
      if k = .update then
        match bsonFind reply "upserted" with
        | some (.array l) => cmdUpsertPairs l
        | _ => []
      else []
  | .legacy k reply _ =>
      if k = .update then
        match bsonFind reply "upserted" with
        | some (.array l) => legacyUpsertPairs 0 l
        | some v => [(0, v)]
        | none => []
      else []

/-- The upsert records a merge operation appends to the accumulator. -/
def MergeOp.upsContrib (op : MergeOp) : List BDoc :=
  (upsSrcPairs op).map (fun p => upsertEntryDoc (int32Wrap (op.off + p.1)) p.2)

/-- The writeConcernError fields a merge operation concatenates onto the
accumulator (only the command path reads `writeConcernError`). -/
def MergeOp.wceContrib : MergeOp → BDoc
  | .cmd _ reply _ =>
      match bsonFind reply "writeConcernError" with
      | some (.doc f) => f
      | _ => []
  | .legacy _ _ _ => []

theorem merge_arrays_eq_map (offset : Nat) (l : List BVal) :
    mongoc_write_result_merge_arrays offset l =
      (docElems l).map (fun f => f.map (rewriteErrorField offset)) := by
  induction l with
  | nil => rfl
  | cons h t ih => cases h <;> simp [mongoc_write_result_merge_arrays, docElems, ih]

theorem appendCmdUpserts_spec (offset : Nat) (pairs : List (Int × BVal))
    (r : WriteResult) :
    appendCmdUpserts offset pairs r =
      { r with
        upserted := r.upserted ++
          pairs.map (fun p => upsertEntryDoc (int32Wrap (offset + p.1)) p.2),
        upsert_append_count := r.upsert_append_count + pairs.length } := by
  induction pairs generalizing r with
  | nil => simp [appendCmdUpserts]
  | cons p rest ih =>
      simp [appendCmdUpserts, mongoc_write_result_append_upsert, ih,
            List.append_assoc, Nat.add_comm, Nat.add_assoc, Nat.add_left_comm]

theorem appendLegacyUpserts_spec (offset : Nat) (l : List BVal) :
    ∀ (j : Nat) (r : WriteResult),
    appendLegacyUpserts offset j l r =
      { r with
        upserted := r.upserted ++
          (legacyUpsertPairs j l).map
            (fun p => upsertEntryDoc (int32Wrap (offset + p.1)) p.2),
        upsert_append_count :=
          r.upsert_append_count + (legacyUpsertPairs j l).length } := by
  induction l with
  | nil => intro j r; simp [appendLegacyUpserts, legacyUpsertPairs]
  | cons h t ih =>
      intro j r
      cases h <;>
        simp only [appendLegacyUpserts, legacyUpsertPairs, ih, List.map_cons,
          List.length_cons, mongoc_write_result_append_upsert]
      case doc f =>
        cases hf : bsonFind f "_id" <;>
          simp [hf, appendLegacyUpserts, legacyUpsertPairs, ih,
                mongoc_write_result_append_upsert, List.append_assoc,
                Nat.add_comm, Nat.add_assoc, Nat.add_left_comm]

/-- The `(index, _id)` pairs of a command update reply, before offsetting. -/
def cmdUpdPairs (reply : BDoc) : List (Int × BVal) :=
  match bsonFind reply "upserted" with
  | some (.array l) => cmdUpsertPairs l
  | some _ => []
  | none => []

theorem mergeCmdWceStep_writeErrors (reply : BDoc) (r : WriteResult) :
    (mergeCmdWceStep reply r).writeErrors = r.writeErrors := by
  unfold mergeCmdWceStep; split <;> rfl

theorem mergeCmdWceStep_upserted (reply : BDoc) (r : WriteResult) :
    (mergeCmdWceStep reply r).upserted = r.upserted := by
  unfold mergeCmdWceStep; split <;> rfl

theorem mergeCmdWceStep_omit (reply : BDoc) (r : WriteResult) :
    (mergeCmdWceStep reply r).omit_nModified = r.omit_nModified := by
  unfold mergeCmdWceStep; split <;> rfl

theorem mergeCmdWceStep_wce (reply : BDoc) (r : WriteResult) :
    (mergeCmdWceStep reply r).writeConcernError =
      r.writeConcernError ++ (MergeOp.cmd .insert reply 0).wceContrib := by
  unfold mergeCmdWceStep MergeOp.wceContrib
  cases h : bsonFind reply "writeConcernError" with
  | none => simp [h]
  | some v => cases v <;> simp [h]

theorem mergeCmdWriteErrorsStep_writeErrors (reply : BDoc) (offset : Nat)
    (r : WriteResult) :
    (mergeCmdWriteErrorsStep reply offset r).writeErrors =
      r.writeErrors ++ (MergeOp.cmd .insert reply offset).weContrib := by
  unfold mergeCmdWriteErrorsStep MergeOp.weContrib weSrcEntries MergeOp.off
  cases h : bsonFind reply "writeErrors" with
  | none => simp [h]
  | some v => cases v <;> simp [h, merge_arrays_eq_map]

theorem mergeCmdWriteErrorsStep_upserted (reply : BDoc) (offset : Nat)
    (r : WriteResult) :
    (mergeCmdWriteErrorsStep reply offset r).upserted = r.upserted := by
  unfold mergeCmdWriteErrorsStep; split <;> rfl

theorem mergeCmdWriteErrorsStep_omit (reply : BDoc) (offset : Nat)
    (r : WriteResult) :
    (mergeCmdWriteErrorsStep reply offset r).omit_nModified = r.omit_nModified := by
  unfold mergeCmdWriteErrorsStep; split <;> rfl

theorem mergeCmdWriteErrorsStep_wce (reply : BDoc) (offset : Nat)
    (r : WriteResult) :
    (mergeCmdWriteErrorsStep reply offset r).writeConcernError =
      r.writeConcernError := by
  unfold mergeCmdWriteErrorsStep; split <;> rfl

theorem mergeCmdUpdate_upserted (reply : BDoc) (offset : Nat) (affected : Int)
    (r : WriteResult) :
    (mergeCmdUpdate reply offset affected r).upserted =
      r.upserted ++
        (cmdUpdPairs reply).map
          (fun p => upsertEntryDoc (int32Wrap (offset + p.1)) p.2) := by
  unfold mergeCmdUpdate cmdUpdPairs
  cases h : bsonFind reply "upserted" with
  | none => simp only [h]; split <;> simp
  | some v =>
      cases v <;> simp only [h] <;> simp [appendCmdUpserts_spec] <;> (split <;> simp)

theorem mergeCmdUpdate_writeErrors (reply : BDoc) (offset : Nat) (affected : Int)
    (r : WriteResult) :
    (mergeCmdUpdate reply offset affected r).writeErrors = r.writeErrors := by
  unfold mergeCmdUpdate
  cases h : bsonFind reply "upserted" with
  | none => simp only [h]; split <;> simp
  | some v =>
      cases v <;> simp only [h] <;> simp [appendCmdUpserts_spec] <;> (split <;> simp)

theorem mergeCmdUpdate_wce (reply : BDoc) (offset : Nat) (affected : Int)
    (r : WriteResult) :
    (mergeCmdUpdate reply offset affected r).writeConcernError =
      r.writeConcernError := by
  unfold mergeCmdUpdate
  cases h : bsonFind reply "upserted" with
  | none => simp only [h]; split <;> simp
  | some v =>
      cases v <;> simp only [h] <;> simp [appendCmdUpserts_spec] <;> (split <;> simp)

theorem mergeCmdUpdate_omit_mono (reply : BDoc) (offset : Nat) (affected : Int)
    (r : WriteResult) (h : r.omit_nModified = true) :
    (mergeCmdUpdate reply offset affected r).omit_nModified = true := by
  unfold mergeCmdUpdate
  cases hu : bsonFind reply "upserted" with
  | none => simp only [hu]; split <;> simp [h]
  | some v =>
      cases v <;> simp only [hu] <;> simp [appendCmdUpserts_spec] <;>
        (split <;> simp [h])

theorem mergeCmdKindStep_upserted (k : WKind) (reply : BDoc) (offset : Nat)
    (affected : Int) (r : WriteResult) :
    (mergeCmdKindStep k reply offset affected r).upserted =
      r.upserted ++ (MergeOp.cmd k reply offset).upsContrib := by
  cases k <;>
    simp only [mergeCmdKindStep, MergeOp.upsContrib, upsSrcPairs, MergeOp.off,
               mergeCmdUpdate_upserted, cmdUpdPairs]
  case delete => simp
  case insert => simp
  case update =>
    cases h : bsonFind reply "upserted" with
    | none => simp [h]
    | some v => cases v <;> simp [h]

theorem mergeCmdKindStep_writeErrors (k : WKind) (reply : BDoc) (offset : Nat)
    (affected : Int) (r : WriteResult) :
    (mergeCmdKindStep k reply offset affected r).writeErrors = r.writeErrors := by
  cases k <;> simp [mergeCmdKindStep, mergeCmdUpdate_writeErrors]

theorem mergeCmdKindStep_wce (k : WKind) (reply : BDoc) (offset : Nat)
    (affected : Int) (r : WriteResult) :
    (mergeCmdKindStep k reply offset affected r).writeConcernError =
      r.writeConcernError := by
  cases k <;> simp [mergeCmdKindStep, mergeCmdUpdate_wce]

theorem mergeCmdKindStep_omit_mono (k : WKind) (reply : BDoc) (offset : Nat)
    (affected : Int) (r : WriteResult) (h : r.omit_nModified = true) :
    (mergeCmdKindStep k reply offset affected r).omit_nModified = true := by
  cases k <;> simp only [mergeCmdKindStep]
  case delete => simp [h]
  case insert => simp [h]
  case update => exact mergeCmdUpdate_omit_mono reply offset affected _ h

theorem mergeLegacyErrStep_writeErrors (reply : BDoc) (offset : Nat)
    (r : WriteResult) :
    (mergeLegacyErrStep reply offset r).writeErrors =
      r.writeErrors ++ (MergeOp.legacy .insert reply offset).weContrib := by
  unfold mergeLegacyErrStep MergeOp.weContrib weSrcEntries MergeOp.off
  cases h : legacyGleError reply with
  | none => simp [h]
  | some ce => simp [h, mongoc_write_result_merge_arrays]

theorem mergeLegacyErrStep_upserted (reply : BDoc) (offset : Nat)
    (r : WriteResult) :
    (mergeLegacyErrStep reply offset r).upserted = r.upserted := by
  unfold mergeLegacyErrStep; split <;> rfl

theorem mergeLegacyErrStep_wce (reply : BDoc) (offset : Nat) (r : WriteResult) :
    (mergeLegacyErrStep reply offset r).writeConcernError =
      r.writeConcernError := by
  unfold mergeLegacyErrStep; split <;> rfl

theorem mergeLegacyUpdate_upserted (reply : BDoc) (offset : Nat) (n : Int)
    (r : WriteResult) :
    (mergeLegacyUpdate reply offset n r).upserted =
      r.upserted ++
        (MergeOp.legacy .update reply offset).upsContrib := by
  unfold mergeLegacyUpdate MergeOp.upsContrib upsSrcPairs MergeOp.off
  cases h : bsonFind reply "upserted" with
  | none => simp only [h]; split <;> simp
  | some v =>
      cases v <;>
        simp [h, appendLegacyUpserts_spec, mongoc_write_result_append_upsert,
              upsertEntryDoc]

theorem mergeLegacyUpdate_writeErrors (reply : BDoc) (offset : Nat) (n : Int)
    (r : WriteResult) :
    (mergeLegacyUpdate reply offset n r).writeErrors = r.writeErrors := by
  unfold mergeLegacyUpdate
  cases h : bsonFind reply "upserted" with
  | none => simp only [h]; split <;> simp
  | some v =>
      cases v <;>
        simp [h, appendLegacyUpserts_spec, mongoc_write_result_append_upsert]

theorem mergeLegacyUpdate_wce (reply : BDoc) (offset : Nat) (n : Int)
    (r : WriteResult) :
    (mergeLegacyUpdate reply offset n r).writeConcernError =
      r.writeConcernError := by
  unfold mergeLegacyUpdate
  cases h : bsonFind reply "upserted" with
  | none => simp only [h]; split <;> simp
  | some v =>
      cases v <;>
        simp [h, appendLegacyUpserts_spec, mongoc_write_result_append_upsert]

theorem mergeLegacyKindStep_upserted (k : WKind) (reply : BDoc) (offset : Nat)
    (r : WriteResult) :
    (mergeLegacyKindStep k reply offset r).upserted =
      r.upserted ++ (MergeOp.legacy k reply offset).upsContrib := by
  cases k <;>
    simp only [mergeLegacyKindStep]
  case delete => simp [MergeOp.upsContrib, upsSrcPairs]
  case insert => split <;> simp [MergeOp.upsContrib, upsSrcPairs]
  case update => exact mergeLegacyUpdate_upserted reply offset _ r

theorem mergeLegacyKindStep_writeErrors (k : WKind) (reply : BDoc) (offset : Nat)
    (r : WriteResult) :
    (mergeLegacyKindStep k reply offset r).writeErrors = r.writeErrors := by
  cases k <;> simp only [mergeLegacyKindStep]
  case insert => split <;> rfl
  case update => exact mergeLegacyUpdate_writeErrors reply offset _ r

theorem mergeLegacyKindStep_wce (k : WKind) (reply : BDoc) (offset : Nat)
    (r : WriteResult) :
    (mergeLegacyKindStep k reply offset r).writeConcernError =
      r.writeConcernError := by
  cases k <;> simp only [mergeLegacyKindStep]
  case insert => split <;> rfl
  case update => exact mergeLegacyUpdate_wce reply offset _ r

theorem applyMergeOp_writeErrors (op : MergeOp) (r : WriteResult) :
    (applyMergeOp r op).writeErrors = r.writeErrors ++ op.weContrib := by
  cases op with
  | cmd k reply offset =>
      show (mongoc_write_result_merge k reply offset r).writeErrors = _
      unfold mongoc_write_result_merge
      rw [mergeCmdWceStep_writeErrors, mergeCmdWriteErrorsStep_writeErrors,
          mergeCmdKindStep_writeErrors]
      rfl
  | legacy k reply offset =>
      show (mongoc_write_result_merge_legacy k reply offset r).writeErrors = _
      unfold mongoc_write_result_merge_legacy
      show (mergeLegacyKindStep k reply offset
              (mergeLegacyErrStep reply offset r)).writeErrors = _
      rw [mergeLegacyKindStep_writeErrors, mergeLegacyErrStep_writeErrors]
      rfl

theorem applyMergeOp_upserted (op : MergeOp) (r : WriteResult) :
    (applyMergeOp r op).upserted = r.upserted ++ op.upsContrib := by
  cases op with
  | cmd k reply offset =>
      show (mongoc_write_result_merge k reply offset r).upserted = _
      unfold mongoc_write_result_merge
      rw [mergeCmdWceStep_upserted, mergeCmdWriteErrorsStep_upserted,
          mergeCmdKindStep_upserted]
  | legacy k reply offset =>
      show (mongoc_write_result_merge_legacy k reply offset r).upserted = _
      unfold mongoc_write_result_merge_legacy
      show (mergeLegacyKindStep k reply offset
              (mergeLegacyErrStep reply offset r)).upserted = _
      rw [mergeLegacyKindStep_upserted, mergeLegacyErrStep_upserted]

theorem applyMergeOp_wce (op : MergeOp) (r : WriteResult) :
    (applyMergeOp r op).writeConcernError =
      r.writeConcernError ++ op.wceContrib := by
  cases op with
  | cmd k reply offset =>
      show (mongoc_write_result_merge k reply offset r).writeConcernError = _
      unfold mongoc_write_result_merge
      rw [mergeCmdWceStep_wce, mergeCmdWriteErrorsStep_wce, mergeCmdKindStep_wce]
      rfl
  | legacy k reply offset =>
      show (mongoc_write_result_merge_legacy k reply offset r).writeConcernError = _
      unfold mongoc_write_result_merge_legacy
      show (mergeLegacyKindStep k reply offset
              (mergeLegacyErrStep reply offset r)).writeConcernError = _
      rw [mergeLegacyKindStep_wce, mergeLegacyErrStep_wce]
      simp [MergeOp.wceContrib]

theorem applyMergeOp_omit_mono (op : MergeOp) (r : WriteResult)
    (h : r.omit_nModified = true) :
    (applyMergeOp r op).omit_nModified = true := by
  cases op with
  | cmd k reply offset =>
      show (mongoc_write_result_merge k reply offset r).omit_nModified = true
      unfold mongoc_write_result_merge
      rw [mergeCmdWceStep_omit, mergeCmdWriteErrorsStep_omit]
      exact mergeCmdKindStep_omit_mono k reply offset _ _ h
  | legacy k reply offset => rfl

/-- A legacy merge always sets `omit_nModified`
(mongoc-write-command.c:1159). -/
theorem mergeLegacy_sets_omit (k : WKind) (reply : BDoc) (offset : Nat)
    (r : WriteResult) :
    (mongoc_write_result_merge_legacy k reply offset r).omit_nModified = true := rfl

theorem applyMergeTrace_writeErrors (ops : List MergeOp) (r : WriteResult) :
    (applyMergeTrace ops r).writeErrors =
      r.writeErrors ++ (ops.map MergeOp.weContrib).flatten := by
  induction ops generalizing r with
  | nil => simp [applyMergeTrace]
  | cons op rest ih =>
      show (applyMergeTrace rest (applyMergeOp r op)).writeErrors = _
      rw [ih, applyMergeOp_writeErrors]
      simp [List.append_assoc]

theorem applyMergeTrace_upserted (ops : List MergeOp) (r : WriteResult) :
    (applyMergeTrace ops r).upserted =
      r.upserted ++ (ops.map MergeOp.upsContrib).flatten := by
  induction ops generalizing r with
  | nil => simp [applyMergeTrace]
  | cons op rest ih =>
      show (applyMergeTrace rest (applyMergeOp r op)).upserted = _
      rw [ih, applyMergeOp_upserted]
      simp [List.append_assoc]

theorem applyMergeTrace_wce (ops : List MergeOp) (r : WriteResult) :
    (applyMergeTrace ops r).writeConcernError =
      r.writeConcernError ++ (ops.map MergeOp.wceContrib).flatten := by
  induction ops generalizing r with
  | nil => simp [applyMergeTrace]
  | cons op rest ih =>
      show (applyMergeTrace rest (applyMergeOp r op)).writeConcernError = _
      rw [ih, applyMergeOp_wce]
      simp [List.append_assoc]

theorem applyMergeTrace_omit_mono (ops : List MergeOp) (r : WriteResult)
    (h : r.omit_nModified = true) :
    (applyMergeTrace ops r).omit_nModified = true := by
  induction ops generalizing r with
  | nil => exact h
  | cons op rest ih =>
      show (applyMergeTrace rest (applyMergeOp r op)).omit_nModified = true
      exact ih _ (applyMergeOp_omit_mono op r h)

theorem int32Wrap_eq_self (x : Int) (h1 : -2147483648 ≤ x) (h2 : x < 2147483648) :
    int32Wrap x = x := by
  unfold int32Wrap; omega

theorem uint32OfInt_eq_toNat (x : Int) (h1 : 0 ≤ x) (h2 : x < 4294967296) :
    uint32OfInt x = x.toNat := by
  unfold uint32OfInt; omega

/-- C2 counterexample: with `bytes_so_far = 2^32 − 1` and `next_item_bytes = 1`
the uint32 sum wraps to 0, so the code returns false although the
mathematical sum `2^32` exceeds `max_bson + 16382 = 16482`. -/
theorem C2_counterexample :
    mongoc_write_command_will_overflow 4294967295 1 0 100 0 = false ∧
    4294967295 + 1 > 100 + 16382 := by
  constructor
  · rfl
  · decide

/-- C2 (amended): when `bytes_so_far + next_item_bytes` does not wrap uint32,
`max_bson` is positive with `max_bson + 16382` in int32 range, and `n_written`
and `max_batch` are in range, will-overflow returns true iff
`bytes_so_far + next_item_bytes > max_bson + 16382`, or `max_batch > 0` and
`n_written ≥ max_batch`. -/
theorem C2_will_overflow_iff (a b n : Nat) (mb mw : Int)
    (h1 : a + b < 4294967296) (h2 : 0 < mb) (h3 : mb + 16382 < 2147483648)
    (h4 : n < 4294967296) (h5 : mw < 2147483648) :
    mongoc_write_command_will_overflow a b n mb mw = true ↔
      ((a : Int) + b > mb + 16382 ∨ (0 < mw ∧ (n : Int) ≥ mw)) := by
  simp only [mongoc_write_command_will_overflow]
  rw [int32Wrap_eq_self (mb + 16382) (by omega) (by omega),
      uint32OfInt_eq_toNat (mb + 16382) (by omega) (by omega)]
  unfold uint32Wrap
  rw [Nat.mod_eq_of_lt h1, Nat.mod_eq_of_lt h4]
  split_ifs with hca hcb
  · constructor
    · intro _
      left
      omega
    · intro _
      rfl
  · rcases hcb with ⟨hmw, hn⟩
    have hh := uint32OfInt_eq_toNat mw (by omega) (by omega)
    rw [hh] at hn
    constructor
    · intro _
      right
      exact ⟨hmw, by omega⟩
    · intro _
      rfl
  · constructor
    · intro hx
      exact absurd hx (by simp)
    · intro hx
      exfalso
      rcases hx with hgt | ⟨hmw, hn⟩
      · exact hca (by omega)
      · have hh := uint32OfInt_eq_toNat mw (by omega) (by omega)
        refine hcb ⟨hmw, ?_⟩
        rw [hh]
        omega

/-- C2 witness: the amended equivalence applied at a concrete input. -/
theorem C2_will_overflow_iff_witness :
    mongoc_write_command_will_overflow 0 20000 0 100 0 = true ↔
      ((0 : Int) + 20000 > 100 + 16382 ∨ (0 < (0 : Int) ∧ (0 : Int) ≥ 0)) :=
  C2_will_overflow_iff 0 20000 0 100 0 (by decide) (by decide) (by decide)
    (by decide) (by decide)

theorem idCount_cons (x : String × BVal) (d : BDoc) :
    idCount (x :: d) = (if x.1 = "_id" then 1 else 0) + idCount d := by
  unfold idCount
  by_cases hx : x.1 = "_id" <;> simp [List.filter_cons, hx, Nat.add_comm]

theorem idCount_eq_zero_of_find_none (d : BDoc) (h : bsonFind d "_id" = none) :
    idCount d = 0 := by
  unfold bsonFind at h
  unfold idCount
  cases hf : List.find? (fun kv => kv.1 = "_id") d with
  | some kv => rw [hf] at h; simp at h
  | none =>
      rw [List.find?_eq_none] at hf
      rw [List.length_eq_zero, List.filter_eq_nil_iff]
      intro kv hkv
      simpa using hf kv hkv

/-- C7: a document without "_id" is appended as a fresh oid "_id" field
followed by the original fields in order; a document with "_id" is appended
unchanged; a well-formed document (at most one "_id" field) therefore yields
an entry with at most one "_id" field.  `insertAppendEntries` applies this
per-document step to each incoming document. -/
theorem C7_auto_id (oid : Nat) (d : BDoc) (h : idCount d ≤ 1) :
    (bsonFind d "_id" = none →
        insertAppendOne oid d = ("_id", BVal.oid oid) :: d) ∧
    (bsonFind d "_id" ≠ none → insertAppendOne oid d = d) ∧
    idCount (insertAppendOne oid d) ≤ 1 ∧
    (∀ (g : Nat → Nat) (i : Nat) (rest : List BDoc),
        insertAppendEntries g i (d :: rest) =
          insertAppendOne (g i) d :: insertAppendEntries g (i + 1) rest) := by
  refine ⟨?_, ?_, ?_, fun g i rest => rfl⟩
  · intro hn; simp [insertAppendOne, hn]
  · intro hs
    unfold insertAppendOne
    cases hf : bsonFind d "_id" with
    | none => exact absurd hf hs
    | some v => rfl
  · unfold insertAppendOne
    cases hf : bsonFind d "_id" with
    | none =>
        have h0 := idCount_eq_zero_of_find_none d hf
        rw [idCount_cons]
        simp [h0]
    | some v => exact h

/-- C7 witness: the per-document properties at a concrete document. -/
theorem C7_auto_id_witness :
    (bsonFind [("a", BVal.int32 1)] "_id" = none →
        insertAppendOne 7 [("a", BVal.int32 1)] =
          ("_id", BVal.oid 7) :: [("a", BVal.int32 1)]) ∧
    (bsonFind [("a", BVal.int32 1)] "_id" ≠ none →
        insertAppendOne 7 [("a", BVal.int32 1)] = [("a", BVal.int32 1)]) ∧
    idCount (insertAppendOne 7 [("a", BVal.int32 1)]) ≤ 1 ∧
    (∀ (g : Nat → Nat) (i : Nat) (rest : List BDoc),
        insertAppendEntries g i ([("a", BVal.int32 1)] :: rest) =
          insertAppendOne (g i) [("a", BVal.int32 1)] ::
            insertAppendEntries g (i + 1) rest) :=
  C7_auto_id 7 [("a", BVal.int32 1)] (by decide)

theorem mergeLegacyUpdate_failed (reply : BDoc) (offset : Nat) (n : Int)
    (r : WriteResult) :
    (mergeLegacyUpdate reply offset n r).failed = r.failed := by
  unfold mergeLegacyUpdate
  cases h : bsonFind reply "upserted" with
  | none => simp only [h]; split <;> simp
  | some v =>
      cases v <;>
        simp [h, appendLegacyUpserts_spec, mongoc_write_result_append_upsert]

theorem mergeLegacyKindStep_failed (k : WKind) (reply : BDoc) (offset : Nat)
    (r : WriteResult) :
    (mergeLegacyKindStep k reply offset r).failed = r.failed := by
  cases k <;> simp only [mergeLegacyKindStep]
  case insert => split <;> rfl
  case update => exact mergeLegacyUpdate_failed reply offset _ r

/-- C10: the legacy merge marks the result failed and appends one synthesized
write error exactly when the reply carries a UTF-8 "err" field and a nonzero
int32 "code" field; otherwise `failed` and `writeErrors` are left unchanged.
The appended entry is `{index: offset + 0, code, errmsg: err}` (the uint32
offset passed through the int32 index rewrite). -/
theorem C10_legacy_err_code (k : WKind) (reply : BDoc) (offset : Nat)
    (r : WriteResult) :
    (∀ e c, bsonFind reply "err" = some (.utf8 e) →
        bsonFind reply "code" = some (.int32 c) → c ≠ 0 →
        (mongoc_write_result_merge_legacy k reply offset r).failed = true ∧
        (mongoc_write_result_merge_legacy k reply offset r).writeErrors =
          r.writeErrors ++
            [[("index", BVal.int32 (int32Wrap offset)), ("code", BVal.int32 c),
              ("errmsg", BVal.utf8 e)]]) ∧
    ((∀ e, bsonFind reply "err" = some (.utf8 e) →
        ∀ c, bsonFind reply "code" = some (.int32 c) → c = 0) →
        (mongoc_write_result_merge_legacy k reply offset r).failed = r.failed ∧
        (mongoc_write_result_merge_legacy k reply offset r).writeErrors =
          r.writeErrors) := by
  constructor
  · intro e c he hc hne
    have hgle : legacyGleError reply = some (c, e) := by
      unfold legacyGleError
      rw [he, hc]
      simp [hne]
    constructor
    · show (mergeLegacyKindStep k reply offset
              (mergeLegacyErrStep reply offset r)).failed = true
      rw [mergeLegacyKindStep_failed]
      unfold mergeLegacyErrStep
      rw [hgle]
    · show (mergeLegacyKindStep k reply offset
              (mergeLegacyErrStep reply offset r)).writeErrors = _
      rw [mergeLegacyKindStep_writeErrors]
      unfold mergeLegacyErrStep
      rw [hgle]
      simp [mongoc_write_result_merge_arrays, rewriteErrorField, bsonIterInt32,
            int32Wrap]
  · intro hno
    have hgle : legacyGleError reply = none := by
      unfold legacyGleError
      cases he : bsonFind reply "err" with
      | none => rfl
      | some v =>
          cases v <;> simp
          case utf8 e =>
            cases hc : bsonFind reply "code" with
            | none => simp
            | some w =>
                cases w <;> simp
                case int32 c => simp [hno e he c hc]
    constructor
    · show (mergeLegacyKindStep k reply offset
              (mergeLegacyErrStep reply offset r)).failed = r.failed
      rw [mergeLegacyKindStep_failed]
      unfold mergeLegacyErrStep
      rw [hgle]
    · show (mergeLegacyKindStep k reply offset
              (mergeLegacyErrStep reply offset r)).writeErrors = r.writeErrors
      rw [mergeLegacyKindStep_writeErrors]
      unfold mergeLegacyErrStep
      rw [hgle]

/-- Apply a merge trace to a zero-initialized accumulator. -/
def finalResultOf (ops : List MergeOp) : WriteResult :=
  applyMergeTrace ops mongoc_write_result_init

/-- C4 counterexample: two command merges each carrying a `writeConcernError`
document.  The accumulator concatenates the two documents' fields
(`bson_concat`), so the stored document has both fields; it is not the
content of the last reply alone, which has a single field. -/
theorem C4_counterexample :
    (finalResultOf
      [MergeOp.cmd .insert
        [("writeConcernError", BVal.doc [("a", BVal.int32 1)])] 0,
       MergeOp.cmd .insert
        [("writeConcernError", BVal.doc [("b", BVal.int32 2)])] 0]).writeConcernError =
      [("a", BVal.int32 1), ("b", BVal.int32 2)] ∧
    ([("a", BVal.int32 1), ("b", BVal.int32 2)] : BDoc).length ≠
      ([("b", BVal.int32 2)] : BDoc).length := by
  constructor
  · rfl
  · decide

/-- C4 (amended): the accumulator's writeConcernError document holds the
concatenation, in merge order, of the writeConcernError documents of every
contributing reply (only command-path merges read the field); the fields of
an earlier reply are not discarded when a later one arrives. -/
theorem C4_wce_concat (ops : List MergeOp) :
    (finalResultOf ops).writeConcernError =
      (ops.map MergeOp.wceContrib).flatten := by
  unfold finalResultOf
  rw [applyMergeTrace_wce]
  rfl

/-- C8: once `omit_nModified` is set on an accumulator, any further sequence
of merge operations leaves it set (finalization does not write the
accumulator at all in the source: `_mongoc_write_result_complete` only reads
it); and every legacy merge sets it. -/
theorem C8_omit_monotone (ops : List MergeOp) (r : WriteResult)
    (h : r.omit_nModified = true) :
    (applyMergeTrace ops r).omit_nModified = true ∧
    (∀ (k : WKind) (reply : BDoc) (offset : Nat) (r2 : WriteResult),
        (mongoc_write_result_merge_legacy k reply offset r2).omit_nModified = true) :=
  ⟨applyMergeTrace_omit_mono ops r h,
   fun k reply offset r2 => mergeLegacy_sets_omit k reply offset r2⟩

/-- C8 witness: monotonicity applied at a concrete accumulator and trace. -/
theorem C8_omit_monotone_witness :
    (applyMergeTrace [MergeOp.cmd .insert [] 0]
        { mongoc_write_result_init with omit_nModified := true }).omit_nModified = true ∧
    (∀ (k : WKind) (reply : BDoc) (offset : Nat) (r2 : WriteResult),
        (mongoc_write_result_merge_legacy k reply offset r2).omit_nModified = true) :=
  C8_omit_monotone [MergeOp.cmd .insert [] 0]
    { mongoc_write_result_init with omit_nModified := true } rfl

/-- The index rewrite with mathematical (non-wrapping) addition: what "the
caller offset plus the server-reported index" means in the claim. -/
def idealRewriteField (offset : Nat) (kv : String × BVal) : String × BVal :=
  if kv.1 = "index" then ("index", BVal.int32 (bsonIterInt32 kv.2 + offset)) else kv

/-- Range side condition under which the int32 index arithmetic of the merge
routines does not wrap: every rewritten write-error index and every offset
upsert index fits in int32. -/
def MergeOp.indexWF (op : MergeOp) : Prop :=
  (∀ src ∈ weSrcEntries op, ∀ kv ∈ src, kv.1 = "index" →
      -2147483648 ≤ bsonIterInt32 kv.2 + (op.off : Int) ∧
        bsonIterInt32 kv.2 + (op.off : Int) < 2147483648) ∧
  (∀ p ∈ upsSrcPairs op, -2147483648 ≤ (op.off : Int) + p.1 ∧
      (op.off : Int) + p.1 < 2147483648)

instance (op : MergeOp) : Decidable op.indexWF := by
  unfold MergeOp.indexWF
  infer_instance

theorem rewrite_eq_ideal (op : MergeOp) (hwf : op.indexWF) (src : BDoc)
    (hsrc : src ∈ weSrcEntries op) :
    src.map (rewriteErrorField op.off) = src.map (idealRewriteField op.off) := by
  apply List.map_congr_left
  intro kv hkv
  unfold rewriteErrorField idealRewriteField
  by_cases hk : kv.1 = "index"
  · have hb := hwf.1 src hsrc kv hkv hk
    simp only [hk, if_true]
    rw [int32Wrap_eq_self _ hb.1 hb.2]
  · simp [hk]

theorem completeDoc_find_writeErrors (r : WriteResult) :
    bsonFind (completeDoc r) "writeErrors" =
      some (BVal.array (r.writeErrors.map BVal.doc)) := by
  unfold completeDoc bsonFind
  split_ifs <;> rfl

/-- C1 (amended): over any merge trace on a zero-initialized accumulator
whose offsets and server-reported indices keep the int32 index arithmetic in
range, every entry of the accumulator's writeErrors array is some reply's
write-error document with each "index" field rewritten to the contributing
merge's caller offset plus the server-reported value, and every entry of the
upserted array is `{index: offset + server-index, _id}` for a server-reported
pair of the contributing merge; the finalized document exposes the
writeErrors array unchanged. -/
theorem C1_index_globality (ops : List MergeOp)
    (hwf : ∀ op ∈ ops, op.indexWF) :
    (∀ e ∈ (finalResultOf ops).writeErrors, ∃ op ∈ ops, ∃ src ∈ weSrcEntries op,
        e = src.map (idealRewriteField op.off)) ∧
    (∀ e ∈ (finalResultOf ops).upserted, ∃ op ∈ ops, ∃ p ∈ upsSrcPairs op,
        e = upsertEntryDoc ((op.off : Int) + p.1) p.2) ∧
    bsonFind (completeDoc (finalResultOf ops)) "writeErrors" =
      some (BVal.array ((finalResultOf ops).writeErrors.map BVal.doc)) := by
  refine ⟨?_, ?_, completeDoc_find_writeErrors _⟩
  · intro e he
    have hrw : (finalResultOf ops).writeErrors = (ops.map MergeOp.weContrib).flatten := by
      unfold finalResultOf
      rw [applyMergeTrace_writeErrors]
      rfl
    rw [hrw, List.mem_flatten] at he
    obtain ⟨l, hl, hel⟩ := he
    rw [List.mem_map] at hl
    obtain ⟨op, hop, rfl⟩ := hl
    unfold MergeOp.weContrib at hel
    rw [List.mem_map] at hel
    obtain ⟨src, hsrc, rfl⟩ := hel
    exact ⟨op, hop, src, hsrc, rewrite_eq_ideal op (hwf op hop) src hsrc⟩
  · intro e he
    have hrw : (finalResultOf ops).upserted = (ops.map MergeOp.upsContrib).flatten := by
      unfold finalResultOf
      rw [applyMergeTrace_upserted]
      rfl
    rw [hrw, List.mem_flatten] at he
    obtain ⟨l, hl, hel⟩ := he
    rw [List.mem_map] at hl
    obtain ⟨op, hop, rfl⟩ := hl
    unfold MergeOp.upsContrib at hel
    rw [List.mem_map] at hel
    obtain ⟨p, hp, rfl⟩ := hel
    have hb := (hwf op hop).2 p hp
    exact ⟨op, hop, p, hp, by rw [int32Wrap_eq_self _ hb.1 hb.2]⟩

/-- C1 counterexample: a single legacy merge of an err/code reply at caller
offset 2^31.  The stored write error's index field is the int32-wrapped value
−2^31, not the claimed caller offset plus server index 2^31 + 0. -/
theorem C1_counterexample :
    (finalResultOf
      [MergeOp.legacy .insert
        [("err", BVal.utf8 "x"), ("code", BVal.int32 5)] 2147483648]).writeErrors =
      [[("index", BVal.int32 (-2147483648)), ("code", BVal.int32 5),
        ("errmsg", BVal.utf8 "x")]] ∧
    (-2147483648 : Int) ≠ 2147483648 + 0 := by
  constructor
  · rfl
  · decide

/-- C1 witness: the amended theorem applied to a concrete command-path merge
at offset 3 whose reply reports a write error at index 1. -/
theorem C1_index_globality_witness :
    ∃ op ∈ [MergeOp.cmd .update
        [("writeErrors", BVal.array
            [BVal.doc [("index", BVal.int32 1), ("code", BVal.int32 9)]])] 3],
      ∃ src ∈ weSrcEntries op,
        [("index", BVal.int32 4), ("code", BVal.int32 9)] =
          src.map (idealRewriteField op.off) :=
  (C1_index_globality
      [MergeOp.cmd .update
        [("writeErrors", BVal.array
            [BVal.doc [("index", BVal.int32 1), ("code", BVal.int32 9)]])] 3]
      (by decide)).1
    [("index", BVal.int32 4), ("code", BVal.int32 9)] (List.Mem.head _)

/-- C6 counterexample: the executor set an error (domain/code/message
99/"boom") and the result holds a write error with errmsg "we" and code 5.
Finalize hands the caller the write error's errmsg/code, overwriting the
executor's error, although the claim says the executor's error is kept. -/
theorem C6_counterexample :
    (mongoc_write_result_complete
      { mongoc_write_result_init with
          failed := true,
          error := bson_set_error .errBson 99 "boom",
          writeErrors := [[("errmsg", BVal.utf8 "we"), ("code", BVal.int32 5)]] }).2.2 =
      bson_set_error .errCommand 5 "we" ∧
    bson_set_error .errCommand 5 "we" ≠ bson_set_error .errBson 99 "boom" := by
  constructor
  · rfl
  · decide

/-- C6 (amended): whenever the result holds write errors and the first entry
carries a UTF-8 errmsg and a nonzero code, finalize fills the caller's error
record from that errmsg and code — regardless of any error already set by
the executor (there is no such guard in the source); in every other case the
caller's record is the executor's error.  With a non-empty writeErrors array
`ret` is always false, so no ret hypothesis is needed. -/
theorem C6_complete_error (r : WriteResult) :
    (∀ first rest msg c, r.writeErrors = first :: rest →
        scanFirstWriteError first = (some msg, c) → c ≠ 0 →
        (mongoc_write_result_complete r).2.2 = bson_set_error .errCommand c msg) ∧
    (∀ first rest c, r.writeErrors = first :: rest →
        scanFirstWriteError first = (none, c) →
        (mongoc_write_result_complete r).2.2 = r.error) ∧
    (∀ first rest msg, r.writeErrors = first :: rest →
        scanFirstWriteError first = (some msg, 0) →
        (mongoc_write_result_complete r).2.2 = r.error) ∧
    (r.writeErrors = [] → (mongoc_write_result_complete r).2.2 = r.error) := by
  refine ⟨?_, ?_, ?_, ?_⟩
  · intro first rest msg c hwe hscan hc
    unfold mongoc_write_result_complete completeErrOut
    rw [hwe]
    simp [hscan, hc]
  · intro first rest c hwe hscan
    unfold mongoc_write_result_complete completeErrOut
    rw [hwe]
    simp [hscan]
  · intro first rest msg hwe hscan
    unfold mongoc_write_result_complete completeErrOut
    rw [hwe]
    simp [hscan]
  · intro hwe
    unfold mongoc_write_result_complete completeErrOut
    rw [hwe]

/-- C6 witness: the first write error's errmsg/code surface when no executor
error was set. -/
theorem C6_complete_error_witness :
    (mongoc_write_result_complete
      { mongoc_write_result_init with
          failed := true,
          writeErrors := [[("errmsg", BVal.utf8 "w"), ("code", BVal.int32 3)]] }).2.2 =
      bson_set_error .errCommand 3 "w" :=
  (C6_complete_error _).1 [("errmsg", BVal.utf8 "w"), ("code", BVal.int32 3)] []
    "w" 3 rfl rfl (by decide)

/-- Length of the decimal key `bson_uint32_to_string` produces for index i. -/
def keyLen (i : Nat) : Nat := (toString i).length

/-- The message `too_large_error` formats (mongoc-write-command.c:374-377). -/
def tooLargeMsg (index : Nat) (len : Nat) (maxBson : Int) : String :=
  "Document " ++ toString index ++ " is too large for the cluster. Document is " ++
    toString len ++ " bytes, max is " ++ toString maxBson ++ "."

/-- Inputs of one `_mongoc_write_command` execution that stay fixed across
`again:` iterations: the ordered flag, the whole documents buffer's bson
length and entry count (used by the fast-path overflow check each iteration),
the node limits, and the per-iteration outcome of
`_mongoc_client_command_simple_with_hint` (the transport oracle). -/
structure CmdParams where
  ordered : Bool
  totalLen : Nat
  totalN : Nat
  maxBson : Int
  maxBatch : Int
  sendOk : Nat → Bool

/-- One `again:` iteration of `_mongoc_write_command` as observed from
outside: how many documents were packed (`i`), whether a command was sent,
the send outcome (`ret`, false when nothing was sent), `has_more`, and the
length of the document examined when the batch builder stopped (only read
when `i = 0`, for the too-large error message). -/
structure CmdIter where
  i : Nat
  sent : Bool
  ret : Bool
  hasMore : Bool
  lastLen : Nat

/-- The slow-path batch builder of `_mongoc_write_command`
(mongoc-write-command.c:862-892): starting from the array header length 5
and per-batch index `i`, append entries until
`_mongoc_write_command_will_overflow (ar.len, key_len + len + 2, i, ...)`,
returning `(i, has_more, len at stop)`. -/
def cmdBuildBatch (maxBson maxBatch : Int) : Nat → Nat → List Nat → Nat × Bool × Nat
  | _, i, [] => (i, false, 0)
  | arLen, i, len :: rest =>
      if mongoc_write_command_will_overflow arLen (keyLen i + len + 2) i
          maxBson maxBatch then
        (i, true, len)
      else
        cmdBuildBatch maxBson maxBatch (arLen + keyLen i + len + 2) (i + 1) rest

/-- One `again:` iteration of `_mongoc_write_command`
(mongoc-write-command.c:841-893): the fast path attaches the whole buffer
when the whole-buffer overflow check passes (`i := n_documents`,
`has_more` stays false); otherwise the slow path builds a batch from the
remaining entries.  Returns the iteration record and the remaining
entries. -/
def cmdIterate (p : CmdParams) (k : Nat) (docs : List Nat) : CmdIter × List Nat :=
  if ¬ mongoc_write_command_will_overflow 0 p.totalLen p.totalN p.maxBson p.maxBatch then
    ({ i := p.totalN, sent := true, ret := p.sendOk k, hasMore := false, lastLen := 0 },
     docs)
  else
    let b := cmdBuildBatch p.maxBson p.maxBatch 5 0 docs
    if b.1 = 0 then
      ({ i := 0, sent := false, ret := false, hasMore := b.2.1, lastLen := b.2.2 }, docs)
    else
      ({ i := b.1, sent := true, ret := p.sendOk k, hasMore := b.2.1, lastLen := b.2.2 },
       docs.drop b.1)

/-- The send/merge/loop part of `_mongoc_write_command`
(mongoc-write-command.c:841-918), fuelled: each iteration packs a batch; with
`i = 0` it records a too-large error and marks the result failed without
sending; otherwise it sends, marks failed on a send failure, and merges the
reply at the running offset; it iterates again iff `has_more && (ret ||
!ordered)`.  `fuel = 0` cuts off runs the C code would continue (with
`i = 0`, unordered and `has_more` the C loop never terminates). -/
def cmdRun (p : CmdParams) (replyOf : Nat → BDoc) (kind : WKind) :
    Nat → Nat → Nat → WriteResult → List Nat → WriteResult × List CmdIter
  | 0, _, _, r, _ => (r, [])
  | fuel + 1, k, offset, r, docs =>
      let step := cmdIterate p k docs
      let r1 :=
        if step.1.i = 0 then
          { r with failed := true,
                   error := bson_set_error .errBson 2
                     (tooLargeMsg 0 step.1.lastLen p.maxBson) }
        else
          mongoc_write_result_merge kind (replyOf k) offset
            (if step.1.ret then r else { r with failed := true })
      if step.1.hasMore ∧ (step.1.ret ∨ p.ordered = false) then
        let next := cmdRun p replyOf kind fuel (k + 1) (offset + step.1.i) r1 step.2
        (next.1, step.1 :: next.2)
      else
        (r1, [step.1])

/-- The iteration records of a run depend only on the fixed parameters and
the remaining entries, not on the accumulator, the replies or the kind. -/
def cmdStepsF (p : CmdParams) : Nat → Nat → List Nat → List CmdIter
  | 0, _, _ => []
  | fuel + 1, k, docs =>
      let step := cmdIterate p k docs
      if step.1.hasMore ∧ (step.1.ret ∨ p.ordered = false) then
        step.1 :: cmdStepsF p fuel (k + 1) step.2
      else
        [step.1]

theorem cmdRun_steps_eq (p : CmdParams) (replyOf : Nat → BDoc) (kind : WKind)
    (fuel : Nat) : ∀ (k offset : Nat) (r : WriteResult) (docs : List Nat),
    (cmdRun p replyOf kind fuel k offset r docs).2 = cmdStepsF p fuel k docs := by
  induction fuel with
  | zero => intro k offset r docs; rfl
  | succ fuel ih =>
      intro k offset r docs
      unfold cmdRun cmdStepsF
      dsimp only
      split
      · simp [ih]
      · rfl

theorem cmdStepsF_ne_nil (p : CmdParams) (fuel k : Nat) (docs : List Nat) :
    cmdStepsF p (fuel + 1) k docs ≠ [] := by
  unfold cmdStepsF
  dsimp only
  split <;> simp

theorem cmdStepsF_only_if (p : CmdParams) (fuel : Nat) :
    ∀ (k : Nat) (docs : List Nat) (j : Nat) (it : CmdIter),
    (cmdStepsF p fuel k docs).get? j = some it →
    (cmdStepsF p fuel k docs).get? (j + 1) ≠ none →
    it.hasMore = true ∧ (it.ret = true ∨ p.ordered = false) := by
  induction fuel with
  | zero => intro k docs j it hj; simp [cmdStepsF] at hj
  | succ fuel ih =>
      intro k docs j it hj hnext
      rw [show cmdStepsF p (fuel + 1) k docs =
            (if (cmdIterate p k docs).1.hasMore ∧
                ((cmdIterate p k docs).1.ret ∨ p.ordered = false) then
              (cmdIterate p k docs).1 :: cmdStepsF p fuel (k + 1) (cmdIterate p k docs).2
            else [(cmdIterate p k docs).1]) from rfl] at hj hnext
      by_cases hc : (cmdIterate p k docs).1.hasMore ∧
          ((cmdIterate p k docs).1.ret ∨ p.ordered = false)
      · rw [if_pos hc] at hj hnext
        cases j with
        | zero =>
            simp only [List.get?] at hj
            cases hj
            exact ⟨by simpa using hc.1, by simpa using hc.2⟩
        | succ j =>
            exact ih (k + 1) _ j it (by simpa using hj) (by simpa using hnext)
      · rw [if_neg hc] at hj hnext
        cases j with
        | zero => simp at hnext
        | succ j => simp at hj

theorem cmdStepsF_forward (p : CmdParams) (fuel : Nat) :
    ∀ (k : Nat) (docs : List Nat) (j : Nat) (it : CmdIter),
    (cmdStepsF p fuel k docs).get? j = some it →
    it.hasMore = true → (it.ret = true ∨ p.ordered = false) →
    j + 1 < fuel →
    (cmdStepsF p fuel k docs).get? (j + 1) ≠ none := by
  induction fuel with
  | zero => intro k docs j it hj; simp [cmdStepsF] at hj
  | succ fuel ih =>
      intro k docs j it hj hhm hret hfuel
      rw [show cmdStepsF p (fuel + 1) k docs =
            (if (cmdIterate p k docs).1.hasMore ∧
                ((cmdIterate p k docs).1.ret ∨ p.ordered = false) then
              (cmdIterate p k docs).1 :: cmdStepsF p fuel (k + 1) (cmdIterate p k docs).2
            else [(cmdIterate p k docs).1]) from rfl] at hj ⊢
      by_cases hc : (cmdIterate p k docs).1.hasMore ∧
          ((cmdIterate p k docs).1.ret ∨ p.ordered = false)
      · rw [if_pos hc] at hj ⊢
        cases j with
        | zero =>
            cases fuel with
            | zero => omega
            | succ f =>
                have hne := cmdStepsF_ne_nil p f (k + 1) (cmdIterate p k docs).2
                cases hcs : cmdStepsF p (f + 1) (k + 1) (cmdIterate p k docs).2 with
                | nil => exact absurd hcs hne
                | cons a t => simp [hcs]
        | succ j =>
            have := ih (k + 1) (cmdIterate p k docs).2 j it (by simpa using hj)
              hhm hret (by omega)
            simpa using this
      · rw [if_neg hc] at hj
        cases j with
        | zero =>
            simp only [List.get?] at hj
            cases hj
            exact absurd ⟨hhm, hret⟩ hc
        | succ j => simp at hj

theorem cmdStepsF_ordered_stop (p : CmdParams) (hord : p.ordered = true) (fuel : Nat) :
    ∀ (k : Nat) (docs : List Nat) (j : Nat) (it : CmdIter),
    (cmdStepsF p fuel k docs).get? j = some it →
    it.ret = false →
    ∀ m, j < m → (cmdStepsF p fuel k docs).get? m = none := by
  induction fuel with
  | zero => intro k docs j it hj; simp [cmdStepsF] at hj
  | succ fuel ih =>
      intro k docs j it hj hret m hm
      rw [show cmdStepsF p (fuel + 1) k docs =
            (if (cmdIterate p k docs).1.hasMore ∧
                ((cmdIterate p k docs).1.ret ∨ p.ordered = false) then
              (cmdIterate p k docs).1 :: cmdStepsF p fuel (k + 1) (cmdIterate p k docs).2
            else [(cmdIterate p k docs).1]) from rfl] at hj ⊢
      by_cases hc : (cmdIterate p k docs).1.hasMore ∧
          ((cmdIterate p k docs).1.ret ∨ p.ordered = false)
      · rw [if_pos hc] at hj ⊢
        cases j with
        | zero =>
            simp only [List.get?] at hj
            cases hj
            rcases hc.2 with h | h
            · rw [hret] at h; exact absurd h (by simp)
            · rw [hord] at h; exact absurd h (by simp)
        | succ j =>
            cases m with
            | zero => omega
            | succ m =>
                have := ih (k + 1) (cmdIterate p k docs).2 j it (by simpa using hj)
                  hret m (by omega)
                simpa using this
      · rw [if_neg hc] at hj ⊢
        cases j with
        | zero =>
            cases m with
            | zero => omega
            | succ m => simp
        | succ j => simp at hj

/-- C9: within a command-path run, iteration `j` is followed by another
iteration only if its `has_more` was set and its send succeeded or the buffer
is unordered; conversely (within the fuel window — the C loop has no fuel
and in particular never terminates when an unordered too-large document makes
`i = 0` with `has_more`) such an iteration is followed by one; and on an
ordered buffer an iteration whose send failed (`ret = false`) is the last:
no later sub-batch is ever issued. -/
theorem C9_subbatch_loop (p : CmdParams) (replyOf : Nat → BDoc) (kind : WKind)
    (fuel k offset : Nat) (r : WriteResult) (docs : List Nat) (j : Nat)
    (it : CmdIter)
    (hj : ((cmdRun p replyOf kind fuel k offset r docs).2).get? j = some it) :
    (((cmdRun p replyOf kind fuel k offset r docs).2).get? (j + 1) ≠ none →
        it.hasMore = true ∧ (it.ret = true ∨ p.ordered = false)) ∧
    (it.hasMore = true → (it.ret = true ∨ p.ordered = false) → j + 1 < fuel →
        ((cmdRun p replyOf kind fuel k offset r docs).2).get? (j + 1) ≠ none) ∧
    (p.ordered = true → it.ret = false →
        ∀ m, j < m →
          ((cmdRun p replyOf kind fuel k offset r docs).2).get? m = none) := by
  rw [cmdRun_steps_eq] at hj ⊢
  exact ⟨cmdStepsF_only_if p fuel k docs j it hj,
         fun hhm hret hfuel => cmdStepsF_forward p fuel k docs j it hj hhm hret hfuel,
         fun hord hret m hm => cmdStepsF_ordered_stop p hord fuel k docs j it hj hret m hm⟩

/-- C9 witness: a two-document ordered buffer split by `max_write_batch = 1`
whose first send fails: the loop-control theorem yields that no second
sub-batch is issued. -/
theorem C9_subbatch_loop_witness :
    ((cmdRun
        { ordered := true, totalLen := 30, totalN := 2, maxBson := 100,
          maxBatch := 1, sendOk := fun _ => false }
        (fun _ => []) .insert 3 0 0 mongoc_write_result_init [1, 1]).2).get? 1 =
      none :=
  (C9_subbatch_loop
      { ordered := true, totalLen := 30, totalN := 2, maxBson := 100,
        maxBatch := 1, sendOk := fun _ => false }
      (fun _ => []) .insert 3 0 0 mongoc_write_result_init [1, 1] 0
      { i := 1, sent := true, ret := false, hasMore := true, lastLen := 1 }
      rfl).2.2 rfl rfl 1 (by decide)

/-- Transport outcomes and getLastError replies consumed by a legacy
executor: whether the write concern requires a getLastError round-trip,
per-exchange send/receive success, and the received reply documents. -/
structure LegacyParams where
  needsGle : Bool
  sendOk : Nat → Bool
  recvOk : Nat → Bool
  gleReply : Nat → BDoc

/-- Wire frames a legacy executor emits: one OP_DELETE or OP_UPDATE frame
per entry (by entry position), or one OP_INSERT frame carrying a batch of
documents (by their global buffer positions). -/
inductive WireEvent where
  | opDelete (entry : Nat)
  | opInsert (batch : List Nat)
  | opUpdate (entry : Nat)

/-- Per-entry loop of `_mongoc_write_command_delete_legacy`
(mongoc-write-command.c:294-338): extract the `q` document, send one
OP_DELETE frame; a send failure marks the result failed and returns; under
an acknowledged write concern receive a getLastError (a receive failure
marks failed and returns) and merge it legacy-style at the per-operation
incremented offset. -/
def deleteLegacyLoop (p : LegacyParams) : Nat → Nat → WriteResult → List BDoc →
    WriteResult × List WireEvent
  | _, _, r, [] => (r, [])
  | k, offset, r, e :: rest =>
      match bsonFind e "q" with
      | some (.doc _) =>
          if p.sendOk k = false then
            ({ r with failed := true }, [WireEvent.opDelete k])
          else if p.needsGle then
            if p.recvOk k = false then
              ({ r with failed := true }, [WireEvent.opDelete k])
            else
              let r1 := mongoc_write_result_merge_legacy .delete (p.gleReply k) offset r
              let next := deleteLegacyLoop p (k + 1) (offset + 1) r1 rest
              (next.1, WireEvent.opDelete k :: next.2)
          else
            let next := deleteLegacyLoop p (k + 1) offset r rest
            (next.1, WireEvent.opDelete k :: next.2)
      | _ => (r, [])

/-- `_mongoc_write_command_delete_legacy` (mongoc-write-command.c:249-341):
an empty buffer records the delete-failed ("Cannot do an empty delete.")
error and marks the result failed without sending; otherwise entries are
processed in order.  Entries without a `q` document hit a debug assertion
and exit in C (modelled by returning unchanged). -/
def mongoc_write_command_delete_legacy (p : LegacyParams) (entries : List BDoc)
    (offset : Nat) (r : WriteResult) : WriteResult × List WireEvent :=
  if entries.isEmpty then
    ({ r with failed := true,
              error := bson_set_error .errCollection (emptyErrorCode .delete)
                "Cannot do an empty delete." }, [])
  else
    deleteLegacyLoop p 0 offset r entries

/-- The `u` sub-document of an update entry, as the validation pass of
`_mongoc_write_command_update_legacy` reads it (mongoc-write-command.c:645-648). -/
def updateEntryU (e : BDoc) : Option BDoc :=
  match bsonFind e "u" with
  | some (.doc f) => some f
  | _ => none

/-- Whether the validation pass rejects a `u` document
(mongoc-write-command.c:651-654): it has a first key, the first key does
not begin with `$`, and `bson_validate` (a libbson primitive, supplied as
the `validate` oracle) rejects it. -/
def updateInvalid (validate : BDoc → Bool) (u : BDoc) : Bool :=
  match u with
  | [] => false
  | (k0, _) :: _ => (¬ k0.startsWith "$") && (¬ validate u)

/-- Outcome of the validation pass over all update entries. -/
inductive UpdateValidation where
  | ok
  | malformed
  | invalidKeys
deriving DecidableEq

/-- The validation pass of `_mongoc_write_command_update_legacy`
(mongoc-write-command.c:643-671): an entry without a `u` document is
"updates is malformed."; a non-operator `u` that fails validation is the
invalid-keys error; otherwise continue. -/
def updateValidate (validate : BDoc → Bool) : List BDoc → UpdateValidation
  | [] => .ok
  | e :: rest =>
      match updateEntryU e with
      | some u =>
          if updateInvalid validate u then .invalidKeys
          else updateValidate validate rest
      | none => .malformed

/-- What the per-entry field scan of the update wire loop collects
(mongoc-write-command.c:689-715): the `u` and `q` documents, the MULTI and
UPSERT flags, and whether an `upsert` field was present at all
(`is_upsert`). -/
structure UpdateScan where
  uDoc : Option BDoc := none
  qDoc : Option BDoc := none
  multiFlag : Bool := false
  upsertFlag : Bool := false
  isUpsert : Bool := false

/-- The field scan itself: every field of the entry is examined in order. -/
def scanUpdateEntry : BDoc → UpdateScan → UpdateScan
  | [], s => s
  | (key, v) :: rest, s =>
      scanUpdateEntry rest
        (if key = "u" then
           (match v with | .doc f => { s with uDoc := some f } | _ => s)
         else if key = "q" then
           (match v with | .doc f => { s with qDoc := some f } | _ => s)
         else if key = "multi" then { s with multiFlag := s.multiFlag || bsonIterBool v }
         else if key = "upsert" then
           { s with upsertFlag := s.upsertFlag || bsonIterBool v, isUpsert := true }
         else s)

/-- The `affected` update of the wire loop (mongoc-write-command.c:733-736):
the variable persists across entries and is only overwritten when the reply
carries an int32 `n`. -/
def gleAffected (gle : BDoc) (old : Int) : Int :=
  match bsonFind gle "n" with
  | some (.int32 i) => i
  | _ => old

/-- The CDRIVER-372 upsert ObjectId back-fill (mongoc-write-command.c:738-756):
when the entry had an `upsert` field, the reply affected something, carries
no `upserted`, and `updatedExisting` is boolean false, append an `upserted`
field copied from the update document's `_id`, else from the selector's. -/
def backfillUpserted (gle : BDoc) (s : UpdateScan) (affected : Int) : BDoc :=
  if s.isUpsert = true ∧ affected ≠ 0 ∧ (bsonFind gle "upserted").isNone = true ∧
      updatedExistingFalse gle = true then
    match (match s.uDoc with
           | some u => bsonFind u "_id"
           | none => none) with
    | some idv => gle ++ [("upserted", idv)]
    | none =>
        match (match s.qDoc with
               | some q => bsonFind q "_id"
               | none => none) with
        | some idv => gle ++ [("upserted", idv)]
        | none => gle
  else gle

/-- The wire loop of `_mongoc_write_command_update_legacy`
(mongoc-write-command.c:675-762): one OP_UPDATE frame per entry; a send or
receive failure marks failed and returns; under an acknowledged write
concern the getLastError is received, `affected` updated, back-filled, and
merged legacy-style at the per-operation incremented offset. -/
def updateLegacyLoop (p : LegacyParams) : Nat → Nat → Int → WriteResult → List BDoc →
    WriteResult × List WireEvent
  | _, _, _, r, [] => (r, [])
  | k, offset, affected, r, e :: rest =>
      let s := scanUpdateEntry e {}
      if p.sendOk k = false then
        ({ r with failed := true }, [WireEvent.opUpdate k])
      else if p.needsGle then
        if p.recvOk k = false then
          ({ r with failed := true }, [WireEvent.opUpdate k])
        else
          let gle := p.gleReply k
          let affected1 := gleAffected gle affected
          let gle1 := backfillUpserted gle s affected1
          let r1 := mongoc_write_result_merge_legacy .update gle1 offset r
          let next := updateLegacyLoop p (k + 1) (offset + 1) affected1 r1 rest
          (next.1, WireEvent.opUpdate k :: next.2)
      else
        let next := updateLegacyLoop p (k + 1) offset affected r rest
        (next.1, WireEvent.opUpdate k :: next.2)

/-- `_mongoc_write_command_update_legacy` (mongoc-write-command.c:609-765):
the validation pass runs first and aborts before any wire work on failure;
then the wire loop.  There is no empty-batch check: with zero entries both
loops do nothing and the function returns with the result untouched. -/
def mongoc_write_command_update_legacy (p : LegacyParams) (validate : BDoc → Bool)
    (entries : List BDoc) (offset : Nat) (r : WriteResult) :
    WriteResult × List WireEvent :=
  match updateValidate validate entries with
  | .malformed =>
      ({ r with failed := true,
                error := bson_set_error .errBson MONGOC_ERROR_BSON_INVALID
                  "updates is malformed." }, [])
  | .invalidKeys =>
      ({ r with failed := true,
                error := bson_set_error .errBson MONGOC_ERROR_BSON_INVALID
                  "update document is corrupt or contains invalid keys including $ or ." },
       [])
  | .ok => updateLegacyLoop p 0 offset 0 r entries

/-- Fixed inputs of `_mongoc_write_command_insert_legacy`: the transport
oracles, the node limits, `singly = !allow_bulk_op_insert`, the ordered
flag, and the constant OP_INSERT frame overhead (header + flags +
namespace). -/
structure InsertParams where
  needsGle : Bool
  sendOk : Nat → Bool
  recvOk : Nat → Bool
  gleReply : Nat → BDoc
  maxBson : Int
  maxMsg : Int
  singly : Bool
  ordered : Bool
  headerSize : Nat

/-- The uint32 value of `max_msg_size - len` (int32 converted to uint32,
subtraction mod 2^32) against which the cumulative frame size is compared
(mongoc-write-command.c:486). -/
def msgSub (maxMsg : Int) (len : Nat) : Nat := uint32OfInt (maxMsg - len)

/-- The batch-building do-while of `_mongoc_write_command_insert_legacy`
(mongoc-write-command.c:460-499): starting at global position `index` with
`nb` documents and `size` bytes packed, examine each remaining document
length.  A document larger than `max_bson_obj_size` (uint32 comparison)
gets a `{index, err, code:2}` write error built by `too_large_error`,
merged legacy-style at `offset + index`; ordered buffers then stop the walk
(the batch so far is still sent), unordered ones skip the document.  A full
batch (`singly` with one packed, or frame size exceeded) stops with
`has_more`.  Returns the result after the too-large merges, the packed
global positions, the position after the walk, and `has_more`. -/
def insertBuildBatch (p : InsertParams) (offset : Nat) :
    Nat → Nat → Nat → WriteResult → List Nat →
    WriteResult × List Nat × Nat × Bool
  | index, _, _, r, [] => (r, [], index, false)
  | index, nb, size, r, len :: rest =>
      if uint32Wrap len > uint32OfInt p.maxBson then
        let msg := tooLargeMsg index len p.maxBson
        let errdoc : BDoc :=
          [("index", BVal.int32 index), ("err", BVal.utf8 msg),
           ("code", BVal.int32 2)]
        let r1 := { r with error := bson_set_error .errBson 2 msg }
        let r2 := mongoc_write_result_merge_legacy .insert errdoc (offset + index) r1
        if p.ordered then
          (r2, [], index, false)
        else
          insertBuildBatch p offset (index + 1) nb size r2 rest
      else if (nb = 1 ∧ p.singly) ∨ uint32Wrap size > msgSub p.maxMsg len then
        (r, [], index, true)
      else
        let out := insertBuildBatch p offset (index + 1) (nb + 1) (size + len) r rest
        (out.1, index :: out.2.1, out.2.2.1, out.2.2.2)

/-- Overwrite of the zero `n` of an insert getLastError
(mongoc-write-command.c:530-543): when the reply's `err` is not truthy and
its first `n` field is the int32 0, that field is overwritten with the
batch's document count, so the legacy merge learns how many were tried. -/
def overwriteInsertN (gle : BDoc) (nDocs : Nat) : BDoc :=
  let errTruthy :=
    match bsonFind gle "err" with
    | some v => bsonIterAsBool v
    | none => false
  let nZero : Bool :=
    match bsonFind gle "n" with
    | some (BVal.int32 i) => decide (i = 0)
    | _ => false
  if errTruthy = false ∧ nZero = true then
    replaceFirstN gle nDocs
  else gle
where
  replaceFirstN : BDoc → Nat → BDoc
    | [], _ => []
    | (key, v) :: rest, n =>
        if key = "n" then ("n", BVal.int32 (n : Int)) :: rest
        else (key, v) :: replaceFirstN rest n

/-- The `again:` loop of `_mongoc_write_command_insert_legacy`
(mongoc-write-command.c:450-557), fuelled: build a batch from the current
position; when it is non-empty send one OP_INSERT frame.  A send or receive
failure marks failed and falls to cleanup — and the C cleanup still loops
again when `has_more` is set.  A received getLastError has its `n`
overwritten, is merged at `current_offset`, and `current_offset` becomes
`offset + index`.  `fuel = 0` cuts off runs the C code would continue
(with a first-of-batch document that never fits in `max_msg_size` the C
loop never terminates). -/
def insertLegacyLoop (p : InsertParams) (offset : Nat) (docs : List Nat) :
    Nat → Nat → Nat → Nat → WriteResult → WriteResult × List WireEvent
  | 0, _, _, _, r => (r, [])
  | fuel + 1, k, index, currentOffset, r =>
      let b := insertBuildBatch p offset index 0 p.headerSize r (docs.drop index)
      let r1 := b.1
      let batch := b.2.1
      let indexAfter := b.2.2.1
      let hasMore := b.2.2.2
      if batch.isEmpty then
        if hasMore then
          insertLegacyLoop p offset docs fuel k indexAfter currentOffset r1
        else
          (r1, [])
      else
        if p.sendOk k = false then
          let r2 := { r1 with failed := true }
          if hasMore then
            let next := insertLegacyLoop p offset docs fuel (k + 1) indexAfter
              currentOffset r2
            (next.1, WireEvent.opInsert batch :: next.2)
          else
            (r2, [WireEvent.opInsert batch])
        else if p.needsGle then
          if p.recvOk k = false then
            let r2 := { r1 with failed := true }
            if hasMore then
              let next := insertLegacyLoop p offset docs fuel (k + 1) indexAfter
                currentOffset r2
              (next.1, WireEvent.opInsert batch :: next.2)
            else
              (r2, [WireEvent.opInsert batch])
          else
            let gle := overwriteInsertN (p.gleReply k) batch.length
            let r2 := mongoc_write_result_merge_legacy .insert gle currentOffset r1
            if hasMore then
              let next := insertLegacyLoop p offset docs fuel (k + 1) indexAfter
                (offset + indexAfter) r2
              (next.1, WireEvent.opInsert batch :: next.2)
            else
              (r2, [WireEvent.opInsert batch])
        else
          if hasMore then
            let next := insertLegacyLoop p offset docs fuel (k + 1) indexAfter
              currentOffset r1
            (next.1, WireEvent.opInsert batch :: next.2)
          else
            (r1, [WireEvent.opInsert batch])

/-- `_mongoc_write_command_insert_legacy` (mongoc-write-command.c:387-562):
an empty buffer records the insert-failed ("Cannot do an empty insert.")
error and marks the result failed without sending; otherwise the batching
loop runs from position 0 with `current_offset = offset`. -/
def mongoc_write_command_insert_legacy (p : InsertParams) (docs : List Nat)
    (offset : Nat) (fuel : Nat) (r : WriteResult) : WriteResult × List WireEvent :=
  if docs.isEmpty then
    ({ r with failed := true,
              error := bson_set_error .errCollection (emptyErrorCode .insert)
                "Cannot do an empty insert." }, [])
  else
    insertLegacyLoop p offset docs fuel 0 0 offset r

/-- `_mongoc_write_command` (mongoc-write-command.c:774-918) invoked on an
update command, including the wire-version dispatch of lines 819-831: at
`min_wire_version == -1` it returns silently; at `min_wire_version == 0`
with a write concern that needs no getLastError it delegates to
`gLegacyWriteOps[MONGOC_WRITE_COMMAND_UPDATE]` =
`_mongoc_write_command_update_legacy` (the same write concern flows down,
so the legacy executor sees `needsGle = false`); otherwise the empty-batch
guard (`_empty_error`, `result->failed = true`, nothing sent) and the
batching loop of lines 841-918 run.  The command path reads the entries
only through their serialized lengths, supplied by `lenOf`. -/
def mongoc_write_command_update (minWire : Int) (needsGle : Bool)
    (lp : LegacyParams) (validate : BDoc → Bool) (cp : CmdParams)
    (replyOf : Nat → BDoc) (lenOf : BDoc → Nat) (entries : List BDoc)
    (fuel offset : Nat) (r : WriteResult) :
    WriteResult × List WireEvent × List CmdIter :=
  if minWire = -1 then (r, [], [])
  else if minWire = 0 ∧ needsGle = false then
    let out := mongoc_write_command_update_legacy { lp with needsGle := false }
      validate entries offset r
    (out.1, out.2, [])
  else if entries.isEmpty then
    ({ r with failed := true,
              error := bson_set_error .errCollection (emptyErrorCode .update)
                ("Cannot do an empty " ++ gCommandNames .update) }, [], [])
  else
    let out := cmdRun cp replyOf .update fuel 0 offset r (entries.map lenOf)
    (out.1, [], out.2)

/-- `_mongoc_write_command` (mongoc-write-command.c:774-918) invoked on a
delete command: silent exit at `min_wire_version == -1`, delegation to
`_mongoc_write_command_delete_legacy` at `min_wire_version == 0` with an
unacknowledged write concern (lines 819-831), otherwise the empty-batch
guard and the batching loop. -/
def mongoc_write_command_delete (minWire : Int) (needsGle : Bool)
    (lp : LegacyParams) (cp : CmdParams) (replyOf : Nat → BDoc)
    (lenOf : BDoc → Nat) (entries : List BDoc) (fuel offset : Nat)
    (r : WriteResult) : WriteResult × List WireEvent × List CmdIter :=
  if minWire = -1 then (r, [], [])
  else if minWire = 0 ∧ needsGle = false then
    let out := mongoc_write_command_delete_legacy { lp with needsGle := false }
      entries offset r
    (out.1, out.2, [])
  else if entries.isEmpty then
    ({ r with failed := true,
              error := bson_set_error .errCollection (emptyErrorCode .delete)
                ("Cannot do an empty " ++ gCommandNames .delete) }, [], [])
  else
    let out := cmdRun cp replyOf .delete fuel 0 offset r (entries.map lenOf)
    (out.1, [], out.2)

/-- `_mongoc_write_command` (mongoc-write-command.c:774-918) invoked on an
insert command: silent exit at `min_wire_version == -1`, delegation to
`_mongoc_write_command_insert_legacy` at `min_wire_version == 0` with an
unacknowledged write concern (lines 819-831), otherwise the empty-batch
guard and the batching loop.  Insert documents are carried by their
serialized lengths on both paths. -/
def mongoc_write_command_insert (minWire : Int) (needsGle : Bool)
    (ip : InsertParams) (cp : CmdParams) (replyOf : Nat → BDoc)
    (docs : List Nat) (legacyFuel fuel offset : Nat) (r : WriteResult) :
    WriteResult × List WireEvent × List CmdIter :=
  if minWire = -1 then (r, [], [])
  else if minWire = 0 ∧ needsGle = false then
    let out := mongoc_write_command_insert_legacy { ip with needsGle := false }
      docs offset legacyFuel r
    (out.1, out.2, [])
  else if docs.isEmpty then
    ({ r with failed := true,
              error := bson_set_error .errCollection (emptyErrorCode .insert)
                ("Cannot do an empty " ++ gCommandNames .insert) }, [], [])
  else
    let out := cmdRun cp replyOf .insert fuel 0 offset r docs
    (out.1, [], out.2)

/-- C5 counterexample: with zero operations the legacy update executor
returns with the result untouched — `failed` still false, no error
recorded — and sends nothing; and the command executor
`_mongoc_write_command` on an update command at `min_wire_version = 0`
under an unacknowledged write concern delegates to that check-less legacy
path, so it too records nothing; the claim says every executor records an
EmptyBatch error and marks the result failed. -/
theorem C5_counterexample :
    (mongoc_write_command_update_legacy
        { needsGle := true, sendOk := fun _ => true, recvOk := fun _ => true,
          gleReply := fun _ => [] }
        (fun _ => true) [] 0 mongoc_write_result_init).1.failed = false ∧
    (mongoc_write_command_update_legacy
        { needsGle := true, sendOk := fun _ => true, recvOk := fun _ => true,
          gleReply := fun _ => [] }
        (fun _ => true) [] 0 mongoc_write_result_init).1.error = ({} : BsonError) ∧
    (mongoc_write_command_update_legacy
        { needsGle := true, sendOk := fun _ => true, recvOk := fun _ => true,
          gleReply := fun _ => [] }
        (fun _ => true) [] 0 mongoc_write_result_init).2 = [] ∧
    mongoc_write_command_update 0 false
        { needsGle := false, sendOk := fun _ => true, recvOk := fun _ => true,
          gleReply := fun _ => [] }
        (fun _ => true)
        { ordered := true, totalLen := 0, totalN := 0, maxBson := 100,
          maxBatch := 0, sendOk := fun _ => true }
        (fun _ => []) (fun _ => 0) [] 3 0 mongoc_write_result_init =
      (mongoc_write_result_init, [], []) :=
  ⟨rfl, rfl, rfl, rfl⟩

/-- C5 (amended): with zero operations the legacy insert and delete
executors record their empty-batch error, mark the result failed, and send
nothing, while the legacy update executor sends nothing and returns but
records no error and leaves `failed` unchanged; the command executor
`_mongoc_write_command` records its empty-batch error and marks the result
failed exactly when its wire-version dispatch reaches the guard: at
`min_wire_version = -1` it returns silently, and at `min_wire_version = 0`
under an unacknowledged write concern it delegates to the legacy executor
of its kind — so insert and delete still record their empty-batch error
there, but update records nothing. -/
theorem C5_empty_batch (r : WriteResult) (offset fuel : Nat) :
    (∀ (p : InsertParams),
        mongoc_write_command_insert_legacy p [] offset fuel r =
          ({ r with failed := true,
                    error := bson_set_error .errCollection (emptyErrorCode .insert)
                      "Cannot do an empty insert." }, [])) ∧
    (∀ (p : LegacyParams),
        mongoc_write_command_delete_legacy p [] offset r =
          ({ r with failed := true,
                    error := bson_set_error .errCollection (emptyErrorCode .delete)
                      "Cannot do an empty delete." }, [])) ∧
    (∀ (p : LegacyParams) (validate : BDoc → Bool),
        mongoc_write_command_update_legacy p validate [] offset r = (r, [])) ∧
    (∀ (minWire : Int) (needsGle : Bool) (lp : LegacyParams)
        (validate : BDoc → Bool) (cp : CmdParams) (replyOf : Nat → BDoc)
        (lenOf : BDoc → Nat),
        ¬ minWire = -1 → ¬ (minWire = 0 ∧ needsGle = false) →
        mongoc_write_command_update minWire needsGle lp validate cp replyOf lenOf
            [] fuel offset r =
          ({ r with failed := true,
                    error := bson_set_error .errCollection (emptyErrorCode .update)
                      ("Cannot do an empty " ++ gCommandNames .update) }, [], [])) ∧
    (∀ (minWire : Int) (needsGle : Bool) (ip : InsertParams) (cp : CmdParams)
        (replyOf : Nat → BDoc) (lfuel : Nat),
        ¬ minWire = -1 → ¬ (minWire = 0 ∧ needsGle = false) →
        mongoc_write_command_insert minWire needsGle ip cp replyOf [] lfuel fuel
            offset r =
          ({ r with failed := true,
                    error := bson_set_error .errCollection (emptyErrorCode .insert)
                      ("Cannot do an empty " ++ gCommandNames .insert) }, [], [])) ∧
    (∀ (minWire : Int) (needsGle : Bool) (lp : LegacyParams) (cp : CmdParams)
        (replyOf : Nat → BDoc) (lenOf : BDoc → Nat),
        ¬ minWire = -1 → ¬ (minWire = 0 ∧ needsGle = false) →
        mongoc_write_command_delete minWire needsGle lp cp replyOf lenOf []
            fuel offset r =
          ({ r with failed := true,
                    error := bson_set_error .errCollection (emptyErrorCode .delete)
                      ("Cannot do an empty " ++ gCommandNames .delete) }, [], [])) ∧
    (∀ (needsGle : Bool) (lp : LegacyParams) (validate : BDoc → Bool)
        (cp : CmdParams) (replyOf : Nat → BDoc) (lenOf : BDoc → Nat),
        mongoc_write_command_update (-1) needsGle lp validate cp replyOf lenOf
            [] fuel offset r = (r, [], [])) ∧
    (∀ (lp : LegacyParams) (validate : BDoc → Bool) (cp : CmdParams)
        (replyOf : Nat → BDoc) (lenOf : BDoc → Nat),
        mongoc_write_command_update 0 false lp validate cp replyOf lenOf
            [] fuel offset r = (r, [], [])) ∧
    (∀ (ip : InsertParams) (cp : CmdParams) (replyOf : Nat → BDoc) (lfuel : Nat),
        mongoc_write_command_insert 0 false ip cp replyOf [] lfuel fuel offset r =
          ({ r with failed := true,
                    error := bson_set_error .errCollection (emptyErrorCode .insert)
                      "Cannot do an empty insert." }, [], [])) ∧
    (∀ (lp : LegacyParams) (cp : CmdParams) (replyOf : Nat → BDoc)
        (lenOf : BDoc → Nat),
        mongoc_write_command_delete 0 false lp cp replyOf lenOf [] fuel offset r =
          ({ r with failed := true,
                    error := bson_set_error .errCollection (emptyErrorCode .delete)
                      "Cannot do an empty delete." }, [], [])) := by
  refine ⟨fun _ => rfl, fun _ => rfl, fun _ _ => rfl, ?_, ?_, ?_,
    fun _ _ _ _ _ _ => rfl, fun _ _ _ _ _ => rfl, fun _ _ _ _ => rfl,
    fun _ _ _ _ => rfl⟩
  · intro minWire needsGle lp validate cp replyOf lenOf h1 h2
    simp only [mongoc_write_command_update, if_neg h1, if_neg h2]
    rfl
  · intro minWire needsGle ip cp replyOf lfuel h1 h2
    simp only [mongoc_write_command_insert, if_neg h1, if_neg h2]
    rfl
  · intro minWire needsGle lp cp replyOf lenOf h1 h2
    simp only [mongoc_write_command_delete, if_neg h1, if_neg h2]
    rfl

theorem mergeLegacy_we_append (k : WKind) (reply : BDoc) (offset2 : Nat)
    (r : WriteResult) :
    (mongoc_write_result_merge_legacy k reply offset2 r).writeErrors =
      r.writeErrors ++ (MergeOp.legacy k reply offset2).weContrib :=
  applyMergeOp_writeErrors (.legacy k reply offset2) r

theorem legacyGleError_errdoc (msg : String) (idx : Int) :
    legacyGleError
      [("index", BVal.int32 idx), ("err", BVal.utf8 msg), ("code", BVal.int32 2)] =
      some (2, msg) := rfl

/-- The write error stored for a too-large document merged at uint32 offset
`offset2`: index is the int32-wrapped offset, code 2, errmsg the formatted
message. -/
theorem errdoc_weContrib (idx : Int) (msg : String) (offset2 : Nat) (k : WKind) :
    (MergeOp.legacy k
        [("index", BVal.int32 idx), ("err", BVal.utf8 msg), ("code", BVal.int32 2)]
        offset2).weContrib =
      [[("index", BVal.int32 (int32Wrap offset2)), ("code", BVal.int32 2),
        ("errmsg", BVal.utf8 msg)]] := by
  simp [MergeOp.weContrib, weSrcEntries, MergeOp.off, legacyGleError_errdoc,
        rewriteErrorField, bsonIterInt32]

/-- The write-error entry the legacy insert path stores for an oversize
document at global position `index` merged with caller offset `offset`. -/
def insErrEntry (offset index len : Nat) (maxBson : Int) : BDoc :=
  [("index", BVal.int32 (int32Wrap ((offset + index : Nat) : Int))),
   ("code", BVal.int32 2),
   ("errmsg", BVal.utf8 (tooLargeMsg index len maxBson))]

theorem insertBuildBatch_we_mono (p : InsertParams) (offset : Nat) :
    ∀ (suffix : List Nat) (index nb size : Nat) (r : WriteResult),
    ∃ tail, (insertBuildBatch p offset index nb size r suffix).1.writeErrors =
      r.writeErrors ++ tail := by
  intro suffix
  induction suffix with
  | nil =>
      intro index nb size r
      exact ⟨[], by simp [insertBuildBatch]⟩
  | cons len rest ih =>
      intro index nb size r
      simp only [insertBuildBatch]
      split
      · split
        · exact ⟨_, by rw [mergeLegacy_we_append]⟩
        · obtain ⟨tail, htail⟩ :=
            ih (index + 1) nb size
              (mongoc_write_result_merge_legacy .insert
                [("index", BVal.int32 index),
                 ("err", BVal.utf8 (tooLargeMsg index len p.maxBson)),
                 ("code", BVal.int32 2)] (offset + index)
                { r with error := bson_set_error .errBson 2 (tooLargeMsg index len p.maxBson) })
          refine ⟨(MergeOp.legacy .insert
              [("index", BVal.int32 index),
               ("err", BVal.utf8 (tooLargeMsg index len p.maxBson)),
               ("code", BVal.int32 2)] (offset + index)).weContrib ++ tail, ?_⟩
          rw [htail, mergeLegacy_we_append, List.append_assoc]
      · split
        · exact ⟨[], by simp⟩
        · exact ih (index + 1) (nb + 1) (size + len) r

theorem insertBuildBatch_bounds (p : InsertParams) (offset : Nat) :
    ∀ (suffix : List Nat) (index nb size : Nat) (r : WriteResult),
    index ≤ (insertBuildBatch p offset index nb size r suffix).2.2.1 ∧
    (insertBuildBatch p offset index nb size r suffix).2.2.1 ≤ index + suffix.length ∧
    ((insertBuildBatch p offset index nb size r suffix).2.2.2 = true →
      (insertBuildBatch p offset index nb size r suffix).2.2.1 <
        index + suffix.length) := by
  intro suffix
  induction suffix with
  | nil => intro index nb size r; simp [insertBuildBatch]
  | cons len rest ih =>
      intro index nb size r
      by_cases h1 : uint32Wrap len > uint32OfInt p.maxBson
      · by_cases h2 : p.ordered = true
        · simp only [insertBuildBatch, if_pos h1, if_pos h2, List.length_cons]
          omega
        · simp only [insertBuildBatch, if_pos h1, if_neg h2, List.length_cons]
          have h := ih (index + 1) nb size
            (mongoc_write_result_merge_legacy .insert
              [("index", BVal.int32 index),
               ("err", BVal.utf8 (tooLargeMsg index len p.maxBson)),
               ("code", BVal.int32 2)] (offset + index)
              { r with error := bson_set_error .errBson 2 (tooLargeMsg index len p.maxBson) })
          refine ⟨by omega, by omega, fun hm => ?_⟩
          have := h.2.2 hm
          omega
      · by_cases h3 : (nb = 1 ∧ p.singly = true) ∨ uint32Wrap size > msgSub p.maxMsg len
        · simp only [insertBuildBatch, if_neg h1, if_pos h3, List.length_cons]
          omega
        · simp only [insertBuildBatch, if_neg h1, if_neg h3, List.length_cons]
          have h := ih (index + 1) (nb + 1) (size + len) r
          refine ⟨by omega, by omega, fun hm => ?_⟩
          have := h.2.2 hm
          omega

theorem insertBuildBatch_end (p : InsertParams) (offset : Nat)
    (hord : p.ordered = false) :
    ∀ (suffix : List Nat) (index nb size : Nat) (r : WriteResult),
    (insertBuildBatch p offset index nb size r suffix).2.2.2 = false →
    (insertBuildBatch p offset index nb size r suffix).2.2.1 =
      index + suffix.length := by
  intro suffix
  induction suffix with
  | nil => intro index nb size r _; simp [insertBuildBatch]
  | cons len rest ih =>
      intro index nb size r hm
      have h2 : ¬ p.ordered = true := by simp [hord]
      by_cases h1 : uint32Wrap len > uint32OfInt p.maxBson
      · simp only [insertBuildBatch, if_pos h1, if_neg h2, List.length_cons] at hm ⊢
        have := ih (index + 1) nb size _ hm
        omega
      · by_cases h3 : (nb = 1 ∧ p.singly = true) ∨ uint32Wrap size > msgSub p.maxMsg len
        · simp only [insertBuildBatch, if_neg h1, if_pos h3] at hm
          simp at hm
        · simp only [insertBuildBatch, if_neg h1, if_neg h3, List.length_cons] at hm ⊢
          have := ih (index + 1) (nb + 1) (size + len) r hm
          omega

theorem insertBuildBatch_empty_full (p : InsertParams) (offset : Nat) :
    ∀ (suffix : List Nat) (index nb size : Nat) (r : WriteResult),
    (insertBuildBatch p offset index nb size r suffix).2.1 = [] →
    (insertBuildBatch p offset index nb size r suffix).2.2.2 = true →
    ∃ len ∈ suffix, ¬ uint32Wrap len > uint32OfInt p.maxBson ∧
      ((nb = 1 ∧ p.singly = true) ∨ uint32Wrap size > msgSub p.maxMsg len) := by
  intro suffix
  induction suffix with
  | nil => intro index nb size r _ hm; simp [insertBuildBatch] at hm
  | cons len rest ih =>
      intro index nb size r hb hm
      by_cases h1 : uint32Wrap len > uint32OfInt p.maxBson
      · by_cases h2 : p.ordered = true
        · simp only [insertBuildBatch, if_pos h1, if_pos h2] at hm
          simp at hm
        · simp only [insertBuildBatch, if_pos h1, if_neg h2] at hb hm
          obtain ⟨l, hl, hsmall, hcond⟩ := ih (index + 1) nb size _ hb hm
          exact ⟨l, List.mem_cons_of_mem _ hl, hsmall, hcond⟩
      · by_cases h3 : (nb = 1 ∧ p.singly = true) ∨ uint32Wrap size > msgSub p.maxMsg len
        · exact ⟨len, List.mem_cons_self _ _, h1, h3⟩
        · simp only [insertBuildBatch, if_neg h1, if_neg h3] at hb
          simp at hb

theorem insertBuildBatch_batch_mem (p : InsertParams) (offset : Nat) :
    ∀ (suffix : List Nat) (index nb size : Nat) (r : WriteResult) (g : Nat),
    g ∈ (insertBuildBatch p offset index nb size r suffix).2.1 →
    index ≤ g ∧ g < (insertBuildBatch p offset index nb size r suffix).2.2.1 ∧
    ∃ len, suffix.get? (g - index) = some len ∧
      ¬ uint32Wrap len > uint32OfInt p.maxBson := by
  intro suffix
  induction suffix with
  | nil => intro index nb size r g hg; simp [insertBuildBatch] at hg
  | cons len rest ih =>
      intro index nb size r g hg
      by_cases h1 : uint32Wrap len > uint32OfInt p.maxBson
      · by_cases h2 : p.ordered = true
        · simp only [insertBuildBatch, if_pos h1, if_pos h2] at hg
          simp at hg
        · simp only [insertBuildBatch, if_pos h1, if_neg h2] at hg ⊢
          obtain ⟨ha, hb, l, hget, hsmall⟩ := ih (index + 1) nb size _ g hg
          refine ⟨by omega, hb, l, ?_, hsmall⟩
          have : g - index = (g - (index + 1)) + 1 := by omega
          rw [this]
          simpa using hget
      · by_cases h3 : (nb = 1 ∧ p.singly = true) ∨ uint32Wrap size > msgSub p.maxMsg len
        · simp only [insertBuildBatch, if_neg h1, if_pos h3] at hg
          simp at hg
        · simp only [insertBuildBatch, if_neg h1, if_neg h3] at hg ⊢
          rcases List.mem_cons.mp hg with hgi | hgt
          · subst hgi
            have hbnd := (insertBuildBatch_bounds p offset rest (g + 1) (nb + 1)
              (size + len) r).1
            refine ⟨le_refl _, by omega, len, by simp [Nat.sub_self], h1⟩
          · obtain ⟨ha, hb, l, hget, hsmall⟩ :=
              ih (index + 1) (nb + 1) (size + len) r g hgt
            refine ⟨by omega, hb, l, ?_, hsmall⟩
            have : g - index = (g - (index + 1)) + 1 := by omega
            rw [this]
            simpa using hget

theorem insertBuildBatch_small_in_batch (p : InsertParams) (offset : Nat) :
    ∀ (suffix : List Nat) (index nb size : Nat) (r : WriteResult) (t len : Nat),
    suffix.get? t = some len → ¬ uint32Wrap len > uint32OfInt p.maxBson →
    index + t < (insertBuildBatch p offset index nb size r suffix).2.2.1 →
    (index + t) ∈ (insertBuildBatch p offset index nb size r suffix).2.1 := by
  intro suffix
  induction suffix with
  | nil => intro index nb size r t len hget _ _; simp at hget
  | cons len0 rest ih =>
      intro index nb size r t len hget hsmall hlt
      by_cases h1 : uint32Wrap len0 > uint32OfInt p.maxBson
      · by_cases h2 : p.ordered = true
        · simp only [insertBuildBatch, if_pos h1, if_pos h2] at hlt
          omega
        · simp only [insertBuildBatch, if_pos h1, if_neg h2] at hlt ⊢
          cases t with
          | zero =>
              simp only [List.get?] at hget
              cases hget
              exact absurd h1 hsmall
          | succ t =>
              have he : index + (t + 1) = (index + 1) + t := by omega
              rw [he] at hlt ⊢
              exact ih (index + 1) nb size _ t len (by simpa using hget) hsmall hlt
      · by_cases h3 : (nb = 1 ∧ p.singly = true) ∨ uint32Wrap size > msgSub p.maxMsg len0
        · simp only [insertBuildBatch, if_neg h1, if_pos h3] at hlt
          omega
        · simp only [insertBuildBatch, if_neg h1, if_neg h3] at hlt ⊢
          cases t with
          | zero => exact List.mem_cons_self _ _
          | succ t =>
              have he : index + (t + 1) = (index + 1) + t := by omega
              rw [he] at hlt ⊢
              exact List.mem_cons_of_mem _
                (ih (index + 1) (nb + 1) (size + len0) r t len (by simpa using hget)
                  hsmall hlt)

theorem tooLarge_err_mem (index len : Nat) (offset2 : Nat) (r : WriteResult)
    (maxBson : Int) :
    [("index", BVal.int32 (int32Wrap (offset2 : Int))), ("code", BVal.int32 2),
     ("errmsg", BVal.utf8 (tooLargeMsg index len maxBson))] ∈
      (mongoc_write_result_merge_legacy .insert
        [("index", BVal.int32 index),
         ("err", BVal.utf8 (tooLargeMsg index len maxBson)),
         ("code", BVal.int32 2)] offset2 r).writeErrors := by
  rw [mergeLegacy_we_append, errdoc_weContrib]
  exact List.mem_append_right _ (by simp)

theorem insertBuildBatch_oversize_err (p : InsertParams) (offset : Nat)
    (hord : p.ordered = false) :
    ∀ (suffix : List Nat) (index nb size : Nat) (r : WriteResult) (t len : Nat),
    suffix.get? t = some len → uint32Wrap len > uint32OfInt p.maxBson →
    index + t < (insertBuildBatch p offset index nb size r suffix).2.2.1 →
    insErrEntry offset (index + t) len p.maxBson ∈
      (insertBuildBatch p offset index nb size r suffix).1.writeErrors := by
  intro suffix
  induction suffix with
  | nil => intro index nb size r t len hget _ _; simp at hget
  | cons len0 rest ih =>
      intro index nb size r t len hget hbig hlt
      have h2 : ¬ p.ordered = true := by simp [hord]
      by_cases h1 : uint32Wrap len0 > uint32OfInt p.maxBson
      · simp only [insertBuildBatch, if_pos h1, if_neg h2] at hlt ⊢
        cases t with
        | zero =>
            simp only [List.get?] at hget
            cases hget
            obtain ⟨tail, htail⟩ := insertBuildBatch_we_mono p offset rest (index + 1)
              nb size
              (mongoc_write_result_merge_legacy .insert
                [("index", BVal.int32 index),
                 ("err", BVal.utf8 (tooLargeMsg index len0 p.maxBson)),
                 ("code", BVal.int32 2)] (offset + index)
                { r with error := bson_set_error .errBson 2 (tooLargeMsg index len0 p.maxBson) })
            rw [htail]
            exact List.mem_append_left _
              (tooLarge_err_mem index len0 (offset + index) _ p.maxBson)
        | succ t =>
            have he : index + (t + 1) = (index + 1) + t := by omega
            rw [he] at hlt ⊢
            exact ih (index + 1) nb size _ t len (by simpa using hget) hbig hlt
      · by_cases h3 : (nb = 1 ∧ p.singly = true) ∨ uint32Wrap size > msgSub p.maxMsg len0
        · simp only [insertBuildBatch, if_neg h1, if_pos h3] at hlt
          omega
        · simp only [insertBuildBatch, if_neg h1, if_neg h3] at hlt ⊢
          cases t with
          | zero =>
              simp only [List.get?] at hget
              cases hget
              exact absurd hbig h1
          | succ t =>
              have he : index + (t + 1) = (index + 1) + t := by omega
              rw [he] at hlt ⊢
              exact ih (index + 1) (nb + 1) (size + len0) r t len (by simpa using hget)
                hbig hlt

theorem insertBuildBatch_ordered (p : InsertParams) (offset : Nat)
    (hord : p.ordered = true) :
    ∀ (suffix : List Nat) (index nb size : Nat) (r : WriteResult) (t len : Nat),
    suffix.get? t = some len → uint32Wrap len > uint32OfInt p.maxBson →
    (∀ j lj, j < t → suffix.get? j = some lj →
      ¬ uint32Wrap lj > uint32OfInt p.maxBson) →
    ((insertBuildBatch p offset index nb size r suffix).2.2.2 = true ∧
      (insertBuildBatch p offset index nb size r suffix).2.2.1 ≤ index + t) ∨
    ((insertBuildBatch p offset index nb size r suffix).2.2.2 = false ∧
      (insertBuildBatch p offset index nb size r suffix).2.2.1 = index + t ∧
      insErrEntry offset (index + t) len p.maxBson ∈
        (insertBuildBatch p offset index nb size r suffix).1.writeErrors) := by
  intro suffix
  induction suffix with
  | nil => intro index nb size r t len hget _ _; simp at hget
  | cons len0 rest ih =>
      intro index nb size r t len hget hbig hpre
      by_cases h1 : uint32Wrap len0 > uint32OfInt p.maxBson
      · simp only [insertBuildBatch, if_pos h1, if_pos hord]
        cases t with
        | zero =>
            simp only [List.get?] at hget
            cases hget
            refine Or.inr ⟨by simp, by simp, ?_⟩
            exact tooLarge_err_mem index len0 (offset + index) _ p.maxBson
        | succ t =>
            exact absurd h1 (hpre 0 len0 (by omega) rfl)
      · cases t with
        | zero =>
            simp only [List.get?] at hget
            cases hget
            exact absurd hbig h1
        | succ t =>
            by_cases h3 : (nb = 1 ∧ p.singly = true) ∨
                uint32Wrap size > msgSub p.maxMsg len0
            · simp only [insertBuildBatch, if_neg h1, if_pos h3]
              exact Or.inl ⟨by simp, by omega⟩
            · simp only [insertBuildBatch, if_neg h1, if_neg h3]
              have hpre2 : ∀ j lj, j < t → rest.get? j = some lj →
                  ¬ uint32Wrap lj > uint32OfInt p.maxBson := by
                intro j lj hj hgj
                exact hpre (j + 1) lj (by omega) (by simpa using hgj)
              rcases ih (index + 1) (nb + 1) (size + len0) r t len
                  (by simpa using hget) hbig hpre2 with ⟨hm, hle⟩ | ⟨hm, heq, hmem⟩
              · exact Or.inl ⟨hm, by omega⟩
              · refine Or.inr ⟨hm, by omega, ?_⟩
                have he : index + (t + 1) = (index + 1) + t := by omega
                rw [he]
                exact hmem

theorem insertLegacyLoop_we_mono (p : InsertParams) (offset : Nat) (docs : List Nat) :
    ∀ (fuel k index co : Nat) (r : WriteResult),
    ∃ tail, (insertLegacyLoop p offset docs fuel k index co r).1.writeErrors =
      r.writeErrors ++ tail := by
  intro fuel
  induction fuel with
  | zero => intro k index co r; exact ⟨[], by simp [insertLegacyLoop]⟩
  | succ fuel ih =>
      intro k index co r
      obtain ⟨t0, ht0⟩ := insertBuildBatch_we_mono p offset (docs.drop index) index 0
        p.headerSize r
      simp only [insertLegacyLoop]
      generalize hB : insertBuildBatch p offset index 0 p.headerSize r (docs.drop index) = B
      rw [hB] at ht0
      split
      · split
        · obtain ⟨t1, ht1⟩ := ih k B.2.2.1 co B.1
          exact ⟨t0 ++ t1, by simp [ht1, ht0, List.append_assoc]⟩
        · exact ⟨t0, ht0⟩
      · split
        · split
          · obtain ⟨t1, ht1⟩ := ih (k + 1) B.2.2.1 co { B.1 with failed := true }
            exact ⟨t0 ++ t1, by simp only [ht1]; simp [ht0, List.append_assoc]⟩
          · exact ⟨t0, ht0⟩
        · split
          · split
            · split
              · obtain ⟨t1, ht1⟩ := ih (k + 1) B.2.2.1 co { B.1 with failed := true }
                exact ⟨t0 ++ t1, by simp only [ht1]; simp [ht0, List.append_assoc]⟩
              · exact ⟨t0, ht0⟩
            · split
              · obtain ⟨t1, ht1⟩ := ih (k + 1) B.2.2.1 (offset + B.2.2.1)
                  (mongoc_write_result_merge_legacy .insert
                    (overwriteInsertN (p.gleReply k) B.2.1.length) co B.1)
                refine ⟨t0 ++ (MergeOp.legacy .insert
                    (overwriteInsertN (p.gleReply k) B.2.1.length) co).weContrib ++ t1, ?_⟩
                simp [ht1, mergeLegacy_we_append, ht0, List.append_assoc]
              · refine ⟨t0 ++ (MergeOp.legacy .insert
                    (overwriteInsertN (p.gleReply k) B.2.1.length) co).weContrib, ?_⟩
                simp [mergeLegacy_we_append, ht0, List.append_assoc]
          · split
            · obtain ⟨t1, ht1⟩ := ih (k + 1) B.2.2.1 co B.1
              exact ⟨t0 ++ t1, by simp [ht1, ht0, List.append_assoc]⟩
            · exact ⟨t0, ht0⟩

theorem insertLegacyLoop_we_preserves (p : InsertParams) (offset : Nat)
    (docs : List Nat) (fuel k index co : Nat) (r : WriteResult) (e : BDoc)
    (he : e ∈ r.writeErrors) :
    e ∈ (insertLegacyLoop p offset docs fuel k index co r).1.writeErrors := by
  obtain ⟨tail, htail⟩ := insertLegacyLoop_we_mono p offset docs fuel k index co r
  rw [htail]
  exact List.mem_append_left _ he

theorem insertLegacyLoop_oversize_err (p : InsertParams) (offset : Nat)
    (docs : List Nat) (hord : p.ordered = false)
    (hfit : ∀ l2 ∈ docs, ¬ uint32Wrap l2 > uint32OfInt p.maxBson →
      ¬ uint32Wrap p.headerSize > msgSub p.maxMsg l2) :
    ∀ (fuel k index co : Nat) (r : WriteResult) (i len : Nat),
    docs.length ≤ index + fuel →
    index ≤ i → docs.get? i = some len →
    uint32Wrap len > uint32OfInt p.maxBson →
    insErrEntry offset i len p.maxBson ∈
      (insertLegacyLoop p offset docs fuel k index co r).1.writeErrors := by
  intro fuel
  induction fuel with
  | zero =>
      intro k index co r i len hfuel hix hget hbig
      exfalso
      have hilen : i < docs.length := by
        by_contra hc
        rw [List.get?_eq_none.mpr (by omega)] at hget
        exact Option.noConfusion hget
      omega
  | succ fuel ih =>
      intro k index co r i len hfuel hix hget hbig
      have hilen : i < docs.length := by
        by_contra hc
        rw [List.get?_eq_none.mpr (by omega)] at hget
        exact Option.noConfusion hget
      simp only [insertLegacyLoop]
      generalize hB : insertBuildBatch p offset index 0 p.headerSize r (docs.drop index) = B
      have hbounds := insertBuildBatch_bounds p offset (docs.drop index) index 0
        p.headerSize r
      rw [hB] at hbounds
      by_cases hlt : i < B.2.2.1
      · have hmem : insErrEntry offset i len p.maxBson ∈ B.1.writeErrors := by
          have hgd : (docs.drop index).get? (i - index) = some len := by
            rw [List.get?_drop]
            have he : index + (i - index) = i := by omega
            rw [he]
            exact hget
          have hx := insertBuildBatch_oversize_err p offset hord (docs.drop index)
            index 0 p.headerSize r (i - index) len hgd hbig (by rw [hB]; omega)
          rw [hB] at hx
          have he : index + (i - index) = i := by omega
          rw [he] at hx
          exact hx
        split
        · split
          · exact insertLegacyLoop_we_preserves _ _ _ _ _ _ _ _ _ hmem
          · exact hmem
        · split
          · split
            · exact insertLegacyLoop_we_preserves _ _ _ _ _ _ _ _ _ hmem
            · exact hmem
          · split
            · split
              · split
                · exact insertLegacyLoop_we_preserves _ _ _ _ _ _ _ _ _ hmem
                · exact hmem
              · split
                · refine insertLegacyLoop_we_preserves _ _ _ _ _ _ _ _ _ ?_
                  rw [mergeLegacy_we_append]
                  exact List.mem_append_left _ hmem
                · rw [mergeLegacy_we_append]
                  exact List.mem_append_left _ hmem
            · split
              · exact insertLegacyLoop_we_preserves _ _ _ _ _ _ _ _ _ hmem
              · exact hmem
      · have hhm : B.2.2.2 = true := by
          cases hmv : B.2.2.2 with
          | true => rfl
          | false =>
              exfalso
              have hend := insertBuildBatch_end p offset hord (docs.drop index) index 0
                p.headerSize r (by rw [hB]; exact hmv)
              rw [hB, List.length_drop] at hend
              omega
        have hbne : ¬ B.2.1.isEmpty = true := by
          cases hbv : B.2.1 with
          | nil =>
              exfalso
              obtain ⟨l2, hl2mem, hl2small, hl2cond⟩ :=
                insertBuildBatch_empty_full p offset (docs.drop index) index 0
                  p.headerSize r (by rw [hB]; exact hbv) (by rw [hB]; exact hhm)
              rcases hl2cond with ⟨h01, _⟩ | hsz
              · omega
              · exact hfit l2 (List.mem_of_mem_drop hl2mem) hl2small hsz
          | cons a t => simp [hbv]
        have hadv : index + 1 ≤ B.2.2.1 := by
          cases hbv : B.2.1 with
          | nil => exact absurd (by simp [hbv]) hbne
          | cons g t =>
              have hm := insertBuildBatch_batch_mem p offset (docs.drop index) index 0
                p.headerSize r g (by rw [hB, hbv]; exact List.mem_cons_self _ _)
              rw [hB] at hm
              omega
        rw [if_neg hbne]
        simp only [if_pos hhm]
        split
        · exact ih (k + 1) B.2.2.1 co _ i len (by omega) (by omega) hget hbig
        · split
          · split
            · exact ih (k + 1) B.2.2.1 co _ i len (by omega) (by omega) hget hbig
            · exact ih (k + 1) B.2.2.1 (offset + B.2.2.1) _ i len (by omega) (by omega)
                hget hbig
          · exact ih (k + 1) B.2.2.1 co _ i len (by omega) (by omega) hget hbig

theorem insertLegacyLoop_batches_small (p : InsertParams) (offset : Nat)
    (docs : List Nat) :
    ∀ (fuel k index co : Nat) (r : WriteResult) (batch : List Nat),
    WireEvent.opInsert batch ∈ (insertLegacyLoop p offset docs fuel k index co r).2 →
    ∀ g ∈ batch, index ≤ g ∧
      ∃ len, docs.get? g = some len ∧ ¬ uint32Wrap len > uint32OfInt p.maxBson := by
  intro fuel
  induction fuel with
  | zero => intro k index co r batch hev; simp [insertLegacyLoop] at hev
  | succ fuel ih =>
      intro k index co r batch hev g hg
      rw [show (insertLegacyLoop p offset docs (fuel + 1) k index co r) =
        (let b := insertBuildBatch p offset index 0 p.headerSize r (docs.drop index)
         let r1 := b.1
         let batch2 := b.2.1
         let indexAfter := b.2.2.1
         let hasMore := b.2.2.2
         if batch2.isEmpty then
           if hasMore then insertLegacyLoop p offset docs fuel k indexAfter co r1
           else (r1, [])
         else
           if p.sendOk k = false then
             let r2 := { r1 with failed := true }
             if hasMore then
               let next := insertLegacyLoop p offset docs fuel (k + 1) indexAfter co r2
               (next.1, WireEvent.opInsert batch2 :: next.2)
             else (r2, [WireEvent.opInsert batch2])
           else if p.needsGle then
             if p.recvOk k = false then
               let r2 := { r1 with failed := true }
               if hasMore then
                 let next := insertLegacyLoop p offset docs fuel (k + 1) indexAfter co r2
                 (next.1, WireEvent.opInsert batch2 :: next.2)
               else (r2, [WireEvent.opInsert batch2])
             else
               let gle := overwriteInsertN (p.gleReply k) batch2.length
               let r2 := mongoc_write_result_merge_legacy .insert gle co r1
               if hasMore then
                 let next := insertLegacyLoop p offset docs fuel (k + 1) indexAfter
                   (offset + indexAfter) r2
                 (next.1, WireEvent.opInsert batch2 :: next.2)
               else (r2, [WireEvent.opInsert batch2])
           else
             if hasMore then
               let next := insertLegacyLoop p offset docs fuel (k + 1) indexAfter co r1
               (next.1, WireEvent.opInsert batch2 :: next.2)
             else (r1, [WireEvent.opInsert batch2])) from rfl] at hev
      have hbounds := insertBuildBatch_bounds p offset (docs.drop index) index 0
        p.headerSize r
      have hbm := insertBuildBatch_batch_mem p offset (docs.drop index) index 0
        p.headerSize r g
      generalize hB : insertBuildBatch p offset index 0 p.headerSize r (docs.drop index) = B
        at hev hbounds hbm
      have hfromB : g ∈ B.2.1 →
          index ≤ g ∧ ∃ len, docs.get? g = some len ∧
            ¬ uint32Wrap len > uint32OfInt p.maxBson := by
        intro hmemB
        obtain ⟨ha, hb, l, hget, hsmall⟩ := hbm hmemB
        refine ⟨ha, l, ?_, hsmall⟩
        rw [List.get?_drop] at hget
        have he : index + (g - index) = g := by omega
        rw [he] at hget
        exact hget
      have hrec : ∀ (k2 co2 : Nat) (r2 : WriteResult),
          WireEvent.opInsert batch ∈
            (insertLegacyLoop p offset docs fuel k2 B.2.2.1 co2 r2).2 →
          index ≤ g ∧ ∃ len, docs.get? g = some len ∧
            ¬ uint32Wrap len > uint32OfInt p.maxBson := by
        intro k2 co2 r2 hin
        obtain ⟨ha, hl⟩ := ih k2 B.2.2.1 co2 r2 batch hin g hg
        exact ⟨by omega, hl⟩
      dsimp only at hev
      split at hev
      · split at hev
        · exact hrec _ _ _ hev
        · simp at hev
      · split at hev
        · split at hev
          · rcases List.mem_cons.mp hev with hhd | htl
            · cases hhd; exact hfromB hg
            · exact hrec _ _ _ htl
          · have hbe : batch = B.2.1 := by simpa using hev
            exact hfromB (hbe ▸ hg)
        · split at hev
          · split at hev
            · split at hev
              · rcases List.mem_cons.mp hev with hhd | htl
                · cases hhd; exact hfromB hg
                · exact hrec _ _ _ htl
              · have hbe : batch = B.2.1 := by simpa using hev
                exact hfromB (hbe ▸ hg)
            · split at hev
              · rcases List.mem_cons.mp hev with hhd | htl
                · cases hhd; exact hfromB hg
                · exact hrec _ _ _ htl
              · have hbe : batch = B.2.1 := by simpa using hev
                exact hfromB (hbe ▸ hg)
          · split at hev
            · rcases List.mem_cons.mp hev with hhd | htl
              · cases hhd; exact hfromB hg
              · exact hrec _ _ _ htl
            · have hbe : batch = B.2.1 := by simpa using hev
              exact hfromB (hbe ▸ hg)

theorem insertLegacyLoop_small_attempted (p : InsertParams) (offset : Nat)
    (docs : List Nat) (hord : p.ordered = false)
    (hfit : ∀ l2 ∈ docs, ¬ uint32Wrap l2 > uint32OfInt p.maxBson →
      ¬ uint32Wrap p.headerSize > msgSub p.maxMsg l2) :
    ∀ (fuel k index co : Nat) (r : WriteResult) (i len : Nat),
    docs.length ≤ index + fuel →
    index ≤ i → docs.get? i = some len →
    ¬ uint32Wrap len > uint32OfInt p.maxBson →
    ∃ batch, WireEvent.opInsert batch ∈
        (insertLegacyLoop p offset docs fuel k index co r).2 ∧ i ∈ batch := by
  intro fuel
  induction fuel with
  | zero =>
      intro k index co r i len hfuel hix hget hsmall
      exfalso
      have hilen : i < docs.length := by
        by_contra hc
        rw [List.get?_eq_none.mpr (by omega)] at hget
        exact Option.noConfusion hget
      omega
  | succ fuel ih =>
      intro k index co r i len hfuel hix hget hsmall
      have hilen : i < docs.length := by
        by_contra hc
        rw [List.get?_eq_none.mpr (by omega)] at hget
        exact Option.noConfusion hget
      simp only [insertLegacyLoop]
      generalize hB : insertBuildBatch p offset index 0 p.headerSize r (docs.drop index) = B
      have hbounds := insertBuildBatch_bounds p offset (docs.drop index) index 0
        p.headerSize r
      rw [hB] at hbounds
      by_cases hlt : i < B.2.2.1
      · have hmem : i ∈ B.2.1 := by
          have hgd : (docs.drop index).get? (i - index) = some len := by
            rw [List.get?_drop]
            have he : index + (i - index) = i := by omega
            rw [he]
            exact hget
          have hx := insertBuildBatch_small_in_batch p offset (docs.drop index) index 0
            p.headerSize r (i - index) len hgd hsmall (by rw [hB]; omega)
          rw [hB] at hx
          have he : index + (i - index) = i := by omega
          rw [he] at hx
          exact hx
        have hbne : ¬ B.2.1.isEmpty = true := by
          cases hbv : B.2.1 with
          | nil => rw [hbv] at hmem; simp at hmem
          | cons a t => simp [hbv]
        rw [if_neg hbne]
        split
        · split
          · exact ⟨B.2.1, List.mem_cons_self _ _, hmem⟩
          · exact ⟨B.2.1, List.mem_cons_self _ _, hmem⟩
        · split
          · split
            · split
              · exact ⟨B.2.1, List.mem_cons_self _ _, hmem⟩
              · exact ⟨B.2.1, List.mem_cons_self _ _, hmem⟩
            · split
              · exact ⟨B.2.1, List.mem_cons_self _ _, hmem⟩
              · exact ⟨B.2.1, List.mem_cons_self _ _, hmem⟩
          · split
            · exact ⟨B.2.1, List.mem_cons_self _ _, hmem⟩
            · exact ⟨B.2.1, List.mem_cons_self _ _, hmem⟩
      · have hhm : B.2.2.2 = true := by
          cases hmv : B.2.2.2 with
          | true => rfl
          | false =>
              exfalso
              have hend := insertBuildBatch_end p offset hord (docs.drop index) index 0
                p.headerSize r (by rw [hB]; exact hmv)
              rw [hB, List.length_drop] at hend
              omega
        have hbne : ¬ B.2.1.isEmpty = true := by
          cases hbv : B.2.1 with
          | nil =>
              exfalso
              obtain ⟨l2, hl2mem, hl2small, hl2cond⟩ :=
                insertBuildBatch_empty_full p offset (docs.drop index) index 0
                  p.headerSize r (by rw [hB]; exact hbv) (by rw [hB]; exact hhm)
              rcases hl2cond with ⟨h01, _⟩ | hsz
              · omega
              · exact hfit l2 (List.mem_of_mem_drop hl2mem) hl2small hsz
          | cons a t => simp [hbv]
        have hadv : index + 1 ≤ B.2.2.1 := by
          cases hbv : B.2.1 with
          | nil => exact absurd (by simp [hbv]) hbne
          | cons g t =>
              have hm := insertBuildBatch_batch_mem p offset (docs.drop index) index 0
                p.headerSize r g (by rw [hB, hbv]; exact List.mem_cons_self _ _)
              rw [hB] at hm
              omega
        rw [if_neg hbne]
        simp only [if_pos hhm]
        split
        · obtain ⟨batch, hbm, him⟩ := ih (k + 1) B.2.2.1 co _ i len (by omega) (by omega)
            hget hsmall
          exact ⟨batch, List.mem_cons_of_mem _ hbm, him⟩
        · split
          · split
            · obtain ⟨batch, hbm, him⟩ := ih (k + 1) B.2.2.1 co _ i len (by omega)
                (by omega) hget hsmall
              exact ⟨batch, List.mem_cons_of_mem _ hbm, him⟩
            · obtain ⟨batch, hbm, him⟩ := ih (k + 1) B.2.2.1 (offset + B.2.2.1) _ i len
                (by omega) (by omega) hget hsmall
              exact ⟨batch, List.mem_cons_of_mem _ hbm, him⟩
          · obtain ⟨batch, hbm, him⟩ := ih (k + 1) B.2.2.1 co _ i len (by omega)
              (by omega) hget hsmall
            exact ⟨batch, List.mem_cons_of_mem _ hbm, him⟩

theorem insertLegacyLoop_ordered_stop (p : InsertParams) (offset : Nat)
    (docs : List Nat) (hord : p.ordered = true)
    (hfit : ∀ l2 ∈ docs, ¬ uint32Wrap l2 > uint32OfInt p.maxBson →
      ¬ uint32Wrap p.headerSize > msgSub p.maxMsg l2)
    (i len : Nat) (hget : docs.get? i = some len)
    (hbig : uint32Wrap len > uint32OfInt p.maxBson)
    (hpre : ∀ j lj, j < i → docs.get? j = some lj →
      ¬ uint32Wrap lj > uint32OfInt p.maxBson) :
    ∀ (fuel k index co : Nat) (r : WriteResult),
    docs.length ≤ index + fuel → index ≤ i →
    insErrEntry offset i len p.maxBson ∈
      (insertLegacyLoop p offset docs fuel k index co r).1.writeErrors ∧
    ∀ batch, WireEvent.opInsert batch ∈
        (insertLegacyLoop p offset docs fuel k index co r).2 →
      ∀ g ∈ batch, g < i := by
  have hilen : i < docs.length := by
    by_contra hc
    rw [List.get?_eq_none.mpr (by omega)] at hget
    exact Option.noConfusion hget
  intro fuel
  induction fuel with
  | zero =>
      intro k index co r hfuel hix
      omega
  | succ fuel ih =>
      intro k index co r hfuel hix
      simp only [insertLegacyLoop]
      generalize hB : insertBuildBatch p offset index 0 p.headerSize r (docs.drop index) = B
      have hgd : (docs.drop index).get? (i - index) = some len := by
        rw [List.get?_drop]
        have he : index + (i - index) = i := by omega
        rw [he]
        exact hget
      have hpred : ∀ j lj, j < i - index → (docs.drop index).get? j = some lj →
          ¬ uint32Wrap lj > uint32OfInt p.maxBson := by
        intro j lj hj hgj
        rw [List.get?_drop] at hgj
        exact hpre (index + j) lj (by omega) hgj
      have hdisj := insertBuildBatch_ordered p offset hord (docs.drop index) index 0
        p.headerSize r (i - index) len hgd hbig hpred
      rw [hB] at hdisj
      have hii : index + (i - index) = i := by omega
      rcases hdisj with ⟨hm, hle⟩ | ⟨hm, heq, hmem⟩
      · rw [hii] at hle
        have hbatchlt : ∀ g ∈ B.2.1, g < i := by
          intro g hg
          have hm2 := insertBuildBatch_batch_mem p offset (docs.drop index) index 0
            p.headerSize r g (by rw [hB]; exact hg)
          rw [hB] at hm2
          omega
        have hbne : ¬ B.2.1.isEmpty = true := by
          cases hbv : B.2.1 with
          | nil =>
              exfalso
              obtain ⟨l2, hl2mem, hl2small, hl2cond⟩ :=
                insertBuildBatch_empty_full p offset (docs.drop index) index 0
                  p.headerSize r (by rw [hB]; exact hbv) (by rw [hB]; exact hm)
              rcases hl2cond with ⟨h01, _⟩ | hsz
              · omega
              · exact hfit l2 (List.mem_of_mem_drop hl2mem) hl2small hsz
          | cons a t => simp [hbv]
        have hadv : index + 1 ≤ B.2.2.1 := by
          cases hbv : B.2.1 with
          | nil => exact absurd (by simp [hbv]) hbne
          | cons g t =>
              have hm2 := insertBuildBatch_batch_mem p offset (docs.drop index) index 0
                p.headerSize r g (by rw [hB, hbv]; exact List.mem_cons_self _ _)
              rw [hB] at hm2
              omega
        rw [if_neg hbne]
        simp only [if_pos hm]
        split
        · obtain ⟨hin, hev⟩ := ih (k + 1) B.2.2.1 co _ (by omega) (by omega)
          refine ⟨hin, ?_⟩
          intro batch hbm g hg
          rcases List.mem_cons.mp hbm with hbe2 | hbm2
          · have hbq : batch = B.2.1 := by simpa using hbe2
            exact hbatchlt g (hbq ▸ hg)
          · exact hev batch hbm2 g hg
        · split
          · split
            · obtain ⟨hin, hev⟩ := ih (k + 1) B.2.2.1 co _ (by omega) (by omega)
              refine ⟨hin, ?_⟩
              intro batch hbm g hg
              rcases List.mem_cons.mp hbm with hbe2 | hbm2
              · have hbq : batch = B.2.1 := by simpa using hbe2
                exact hbatchlt g (hbq ▸ hg)
              · exact hev batch hbm2 g hg
            · obtain ⟨hin, hev⟩ := ih (k + 1) B.2.2.1 (offset + B.2.2.1) _
                (by omega) (by omega)
              refine ⟨hin, ?_⟩
              intro batch hbm g hg
              rcases List.mem_cons.mp hbm with hbe2 | hbm2
              · have hbq : batch = B.2.1 := by simpa using hbe2
                exact hbatchlt g (hbq ▸ hg)
              · exact hev batch hbm2 g hg
          · obtain ⟨hin, hev⟩ := ih (k + 1) B.2.2.1 co _ (by omega) (by omega)
            refine ⟨hin, ?_⟩
            intro batch hbm g hg
            rcases List.mem_cons.mp hbm with hbe2 | hbm2
            · have hbq : batch = B.2.1 := by simpa using hbe2
              exact hbatchlt g (hbq ▸ hg)
            · exact hev batch hbm2 g hg
      · rw [hii] at heq hmem
        have hbatchlt : ∀ g ∈ B.2.1, g < i := by
          intro g hg
          have hm2 := insertBuildBatch_batch_mem p offset (docs.drop index) index 0
            p.headerSize r g (by rw [hB]; exact hg)
          rw [hB] at hm2
          omega
        have hnm : ¬ B.2.2.2 = true := by simp [hm]
        by_cases hbe : B.2.1.isEmpty = true
        · rw [if_pos hbe, if_neg hnm]
          exact ⟨hmem, by intro batch hbm; simp at hbm⟩
        · rw [if_neg hbe]
          simp only [if_neg hnm]
          split
          · refine ⟨hmem, ?_⟩
            intro batch hbm g hg
            have hbq : batch = B.2.1 := by simpa using hbm
            exact hbatchlt g (hbq ▸ hg)
          · split
            · split
              · refine ⟨hmem, ?_⟩
                intro batch hbm g hg
                have hbq : batch = B.2.1 := by simpa using hbm
                exact hbatchlt g (hbq ▸ hg)
              · refine ⟨?_, ?_⟩
                · rw [mergeLegacy_we_append]
                  exact List.mem_append_left _ hmem
                · intro batch hbm g hg
                  have hbq : batch = B.2.1 := by simpa using hbm
                  exact hbatchlt g (hbq ▸ hg)
            · refine ⟨hmem, ?_⟩
              intro batch hbm g hg
              have hbq : batch = B.2.1 := by simpa using hbm
              exact hbatchlt g (hbq ▸ hg)

/-- C3: on the legacy insert path, with every small document fitting the
message budget and enough fuel to cover the buffer, (a) unordered: every
document whose length exceeds `max_bson_obj_size` yields the synthesized
`{index, code:2, errmsg}` write error (index rewritten by the merge at
`offset + index`) in the final result; (b) unordered: every small document
is still attempted — it appears in some sent OP_INSERT batch; (c) ordered:
for the first oversize document the error is merged and every sent batch
holds only earlier documents, so no later document is processed or sent;
(d) a sent batch never contains an oversize document. -/
theorem C3_insert_legacy_oversize (p : InsertParams) (docs : List Nat)
    (offset fuel : Nat) (r : WriteResult)
    (hfit : ∀ l2 ∈ docs, ¬ uint32Wrap l2 > uint32OfInt p.maxBson →
      ¬ uint32Wrap p.headerSize > msgSub p.maxMsg l2)
    (hfuel : docs.length ≤ fuel) :
    (p.ordered = false →
      ∀ i len, docs.get? i = some len → uint32Wrap len > uint32OfInt p.maxBson →
        insErrEntry offset i len p.maxBson ∈
          (mongoc_write_command_insert_legacy p docs offset fuel r).1.writeErrors) ∧
    (p.ordered = false →
      ∀ i len, docs.get? i = some len → ¬ uint32Wrap len > uint32OfInt p.maxBson →
        ∃ batch, WireEvent.opInsert batch ∈
            (mongoc_write_command_insert_legacy p docs offset fuel r).2 ∧
          i ∈ batch) ∧
    (p.ordered = true →
      ∀ i len, docs.get? i = some len → uint32Wrap len > uint32OfInt p.maxBson →
        (∀ j lj, j < i → docs.get? j = some lj →
          ¬ uint32Wrap lj > uint32OfInt p.maxBson) →
        insErrEntry offset i len p.maxBson ∈
          (mongoc_write_command_insert_legacy p docs offset fuel r).1.writeErrors ∧
        ∀ batch, WireEvent.opInsert batch ∈
            (mongoc_write_command_insert_legacy p docs offset fuel r).2 →
          ∀ g ∈ batch, g < i) ∧
    (∀ batch, WireEvent.opInsert batch ∈
        (mongoc_write_command_insert_legacy p docs offset fuel r).2 →
      ∀ g ∈ batch, ∃ len, docs.get? g = some len ∧
        ¬ uint32Wrap len > uint32OfInt p.maxBson) := by
  refine ⟨?_, ?_, ?_, ?_⟩
  · intro hord i len hget hbig
    have hne : ¬ docs.isEmpty = true := by
      cases docs with
      | nil => simp at hget
      | cons a t => simp
    simp only [mongoc_write_command_insert_legacy, if_neg hne]
    exact insertLegacyLoop_oversize_err p offset docs hord hfit fuel 0 0 offset r
      i len (by omega) (Nat.zero_le i) hget hbig
  · intro hord i len hget hsmall
    have hne : ¬ docs.isEmpty = true := by
      cases docs with
      | nil => simp at hget
      | cons a t => simp
    simp only [mongoc_write_command_insert_legacy, if_neg hne]
    exact insertLegacyLoop_small_attempted p offset docs hord hfit fuel 0 0 offset r
      i len (by omega) (Nat.zero_le i) hget hsmall
  · intro hord i len hget hbig hpre
    have hne : ¬ docs.isEmpty = true := by
      cases docs with
      | nil => simp at hget
      | cons a t => simp
    simp only [mongoc_write_command_insert_legacy, if_neg hne]
    exact insertLegacyLoop_ordered_stop p offset docs hord hfit i len hget hbig hpre
      fuel 0 0 offset r (by omega) (Nat.zero_le i)
  · intro batch hbm g hg
    by_cases hne : docs.isEmpty = true
    · simp only [mongoc_write_command_insert_legacy, if_pos hne] at hbm
      simp at hbm
    · simp only [mongoc_write_command_insert_legacy, if_neg hne] at hbm
      exact (insertLegacyLoop_batches_small p offset docs fuel 0 0 offset r batch
        hbm g hg).2

def c3wp : InsertParams :=
  { needsGle := false, sendOk := fun _ => true, recvOk := fun _ => true,
    gleReply := fun _ => [], maxBson := 10, maxMsg := 1000,
    singly := false, ordered := false, headerSize := 26 }

theorem C3_insert_legacy_oversize_witness :
    insErrEntry 0 0 11 10 ∈
      (mongoc_write_command_insert_legacy c3wp [11, 5] 0 2
        mongoc_write_result_init).1.writeErrors ∧
    ∃ batch, WireEvent.opInsert batch ∈
        (mongoc_write_command_insert_legacy c3wp [11, 5] 0 2
          mongoc_write_result_init).2 ∧ 1 ∈ batch :=
  ⟨(C3_insert_legacy_oversize c3wp [11, 5] 0 2 mongoc_write_result_init
      (by decide) (by decide)).1 rfl 0 11 rfl (by decide),
   (C3_insert_legacy_oversize c3wp [11, 5] 0 2 mongoc_write_result_init
      (by decide) (by decide)).2.1 rfl 1 5 rfl (by decide)⟩
